import Mathlib

/-!
# Verification of the pg-context-engine continent ingest/diff/projection core

A shallow embedding of `src/svc/activities.py`, `src/svc/app.py`,
`src/svc/workflows.py` (the continent-style pipeline) together with
theorems settling the spec claims.

Modelling conventions:
* JSON values (`orjson` payloads / Python dicts parsed from JSON) are the
  inductive `Json` below.  Numbers are restricted to integers: every claim
  and spec scenario uses integral payloads, and float semantics are out of
  scope for the embedding.
* Python dicts are association lists built with Python's insertion
  semantics (`dictInsert`): inserting an existing key overwrites the value
  in place, keeping the key's original position.  Dicts produced by JSON
  parsing or by the code never carry duplicate keys.
* The MySQL connection pool is created with `autocommit=True`
  (`src/svc/db.py`), so every SQL statement is individually durable and
  immediately visible to concurrent readers.  Stateful activities are
  embedded as functions from an explicit database/cache state to the list
  of intermediate (observable) states, one per executed statement.
-/

namespace PgSpec

/-- JSON-like values, as parsed by `orjson.loads` / delivered by pydantic.
Numbers are restricted to integers (see module docstring). -/
inductive Json where
  | null
  | bool (b : Bool)
  | num (n : Int)
  | str (s : String)
  | arr (elts : List Json)
  | obj (fields : List (String × Json))
deriving Repr, Inhabited

mutual

def decEqJson (a b : Json) : Decidable (a = b) := by
  cases a <;> cases b <;>
    try { apply isFalse; intro hc; injection hc }
  case null.null => exact isTrue rfl
  case bool.bool x y =>
    exact match decEq x y with
    | isTrue h => isTrue (by rw [h])
    | isFalse h => isFalse (by intro hc; injection hc; contradiction)
  case num.num x y =>
    exact match decEq x y with
    | isTrue h => isTrue (by rw [h])
    | isFalse h => isFalse (by intro hc; injection hc; contradiction)
  case str.str x y =>
    exact match decEq x y with
    | isTrue h => isTrue (by rw [h])
    | isFalse h => isFalse (by intro hc; injection hc; contradiction)
  case arr.arr xs ys =>
    exact match decEqJsonList xs ys with
    | isTrue h => isTrue (by rw [h])
    | isFalse h => isFalse (by intro hc; injection hc; contradiction)
  case obj.obj fs gs =>
    exact match decEqJsonFields fs gs with
    | isTrue h => isTrue (by rw [h])
    | isFalse h => isFalse (by intro hc; injection hc; contradiction)

def decEqJsonList (xs ys : List Json) : Decidable (xs = ys) :=
  match xs, ys with
  | [], [] => isTrue rfl
  | _ :: _, [] => isFalse (by intro hc; simp at hc)
  | [], _ :: _ => isFalse (by intro hc; simp at hc)
  | x :: xs, y :: ys =>
    match decEqJson x y, decEqJsonList xs ys with
    | isTrue h1, isTrue h2 => isTrue (by rw [h1, h2])
    | isFalse h1, _ => isFalse (by intro hc; injection hc; contradiction)
    | _, isFalse h2 => isFalse (by intro hc; injection hc; contradiction)

def decEqJsonFields (fs gs : List (String × Json)) : Decidable (fs = gs) :=
  match fs, gs with
  | [], [] => isTrue rfl
  | _ :: _, [] => isFalse (by intro hc; simp at hc)
  | [], _ :: _ => isFalse (by intro hc; simp at hc)
  | (k, v) :: fs, (k', v') :: gs =>
    match decEq k k', decEqJson v v', decEqJsonFields fs gs with
    | isTrue h1, isTrue h2, isTrue h3 => isTrue (by rw [h1, h2, h3])
    | isFalse h1, _, _ =>
        isFalse (by intro hc; injection hc with hp _; injection hp; contradiction)
    | _, isFalse h2, _ =>
        isFalse (by intro hc; injection hc with hp _; injection hp; contradiction)
    | _, _, isFalse h3 => isFalse (by intro hc; injection hc; contradiction)

end

instance : DecidableEq Json := decEqJson

instance {ε α : Type} [DecidableEq ε] [DecidableEq α] :
    DecidableEq (Except ε α) := fun a b =>
  match a, b with
  | .ok x, .ok y =>
      match decEq x y with
      | isTrue h => isTrue (by rw [h])
      | isFalse h => isFalse (by intro hc; injection hc; contradiction)
  | .error x, .error y =>
      match decEq x y with
      | isTrue h => isTrue (by rw [h])
      | isFalse h => isFalse (by intro hc; injection hc; contradiction)
  | .ok _, .error _ => isFalse (by intro hc; injection hc)
  | .error _, .ok _ => isFalse (by intro hc; injection hc)

/-- Python `dict` lookup on an association list (`d.get(k)` successful
case).  Dicts built with `dictInsert` have unique keys, so first-match
lookup agrees with Python. -/
def jLookup (k : String) : List (String × Json) → Option Json
  | [] => none
  | (k', v) :: rest => if k' = k then some v else jLookup k rest

/-- Python `dict` insertion `d[k] = v`: overwrite in place if the key is
present (keeping its original position), else append. -/
def dictInsert (k : String) (v : Json) : List (String × Json) → List (String × Json)
  | [] => [(k, v)]
  | (k', v') :: rest =>
      if k' = k then (k, v) :: rest else (k', v') :: dictInsert k v rest

mutual

/-- The nesting depth of a value, used as the structural fuel of
`pyEqFuel` (Python `==` recurses along the left value's structure, so its
recursion depth is bounded by `jsonDepth` of the left value). -/
def jsonDepth : Json → Nat
  | .null | .bool _ | .num _ | .str _ => 1
  | .arr xs => jsonDepthList xs + 1
  | .obj fs => jsonDepthFields fs + 1

def jsonDepthList : List Json → Nat
  | [] => 0
  | x :: xs => max (jsonDepth x) (jsonDepthList xs)

def jsonDepthFields : List (String × Json) → Nat
  | [] => 0
  | p :: ps => max (jsonDepth p.2) (jsonDepthFields ps)

end

/-- Python structural equality `==` on parsed JSON payloads, with
structural fuel: dict equality ignores key order (`len(a) == len(b)` and
every key of `a` maps in `b` to an `==`-equal value), list equality is
length plus pointwise `==`, scalars compare by value.  The fuel only
bounds the recursion depth: `pyEq` supplies `jsonDepth` of the left
value, so the `0` case is never reached (`pyEqFuel_congr`). -/
def pyEqFuel : Nat → Json → Json → Bool
  | 0, _, _ => false
  | fuel + 1, a, b =>
      match a, b with
      | .null, .null => true
      | .bool x, .bool y => x == y
      | .num x, .num y => x == y
      | .str x, .str y => x == y
      | .arr xs, .arr ys =>
          xs.length == ys.length &&
            (xs.zip ys).all fun p => pyEqFuel fuel p.1 p.2
      | .obj fs, .obj gs =>
          fs.length == gs.length &&
            fs.all fun kv =>
              match jLookup kv.1 gs with
              | some w => pyEqFuel fuel kv.2 w
              | none => false
      | _, _ => false

/-- Python `==` on parsed JSON payloads. -/
def pyEq (a b : Json) : Bool := pyEqFuel (jsonDepth a) a b

/-- Pairwise-distinct keys of an association list. -/
def keysNodup : List (String × Json) → Bool
  | [] => true
  | p :: ps => !(ps.any fun q => q.1 == p.1) && keysNodup ps

mutual

/-- Well-formedness of a payload as a Python value: every object
(recursively) has pairwise-distinct keys.  Values obtained from Python
dicts / `orjson.loads` always satisfy this. -/
def wfJson : Json → Bool
  | .null | .bool _ | .num _ | .str _ => true
  | .arr xs => wfJsonList xs
  | .obj fs => keysNodup fs && wfJsonFields fs

def wfJsonList : List Json → Bool
  | [] => true
  | x :: xs => wfJson x && wfJsonList xs

def wfJsonFields : List (String × Json) → Bool
  | [] => true
  | p :: ps => wfJson p.2 && wfJsonFields ps

end

/-- Python `repr` of a parsed-JSON value, used by `str()` on containers.
Strings are rendered single-quoted; quote escaping inside strings is not
modelled (item ids in this system are scalars, where `repr` is not used). -/
def pyRepr : Json → String
  | .null => "None"
  | .bool b => if b then "True" else "False"
  | .num n => toString n
  | .str s => "\x27" ++ s ++ "\x27"
  | .arr xs => "[" ++ String.intercalate ", " (xs.attach.map fun x => pyRepr x.1) ++ "]"
  | .obj fs =>
      "\x7b" ++
        String.intercalate ", "
          (fs.attach.map fun p => pyRepr (.str p.1.1) ++ ": " ++ pyRepr p.1.2) ++
        "\x7d"
decreasing_by
  · have := List.sizeOf_lt_of_mem x.2
    simp_wf
    omega
  · have := List.sizeOf_lt_of_mem p.2
    obtain ⟨⟨k, v⟩, hm⟩ := p
    simp_wf
    simp at this
    omega
  · have := List.sizeOf_lt_of_mem p.2
    obtain ⟨⟨k, v⟩, hm⟩ := p
    simp_wf
    simp at this
    omega

/-- Python `str()` coercion of a parsed-JSON value. -/
def pyStr : Json → String
  | .null => "None"
  | .bool b => if b then "True" else "False"
  | .num n => toString n
  | .str s => s
  | v => pyRepr v

/-- `_extract_id` (src/svc/activities.py:10) as used under the
`try/except ValueError` of its callers: `item.get('id')`, raising (and
hence being skipped) when the id is absent or `None`.  Non-dict items
are outside every claim (in Python they raise an uncaught
`AttributeError`); the embedding maps them to `none`. -/
def extract_id : Json → Option String
  | .obj fs =>
      match jLookup "id" fs with
      | none => none
      | some .null => none
      | some v => some (pyStr v)
  | _ => none

/-- The `old_map` / `new_map` construction loop of `_compute_diff`
(src/svc/activities.py:27-41): a Python dict keyed by `str(item.id)`,
items without an id skipped. -/
def buildMap (items : List Json) : List (String × Json) :=
  items.foldl
    (fun m item =>
      match extract_id item with
      | some k => dictInsert k item m
      | none => m)
    []

/-- One delta record as built by `_compute_diff`; field order mirrors the
Python dict literal (`diff_type`, `item_id`, `old_item`, `new_item`, `ts`).
`old_item` / `new_item` use `Json.null` for Python `None`. -/
structure DiffRec where
  diff_type : String
  item_id : String
  old_item : Json
  new_item : Json
  ts : Nat
deriving DecidableEq, Repr

/-- `_compute_diff` (src/svc/activities.py:17-78): adds/updates in
`new_map` iteration order, then deletes in `old_map` iteration order. -/
def compute_diff (old_items new_items : List Json) (ts : Nat) : List DiffRec :=
  if old_items.isEmpty && new_items.isEmpty then [] else
  let old_map := buildMap old_items
  let new_map := buildMap new_items
  let diffs := new_map.foldl
    (fun acc kv =>
      match jLookup kv.1 old_map with
      | none => acc ++ [⟨"add", kv.1, .null, kv.2, ts⟩]
      | some old_item =>
          if pyEq old_item kv.2 then acc
          else acc ++ [⟨"update", kv.1, old_item, kv.2, ts⟩])
    []
  old_map.foldl
    (fun acc kv =>
      match jLookup kv.1 new_map with
      | none => acc ++ [⟨"delete", kv.1, kv.2, .null, ts⟩]
      | some _ => acc)
    diffs

/-- Keyed-merge replay of delta records, as stated by the delta-replay
claim: insert `new_item` on `add`, replace on `update`, remove on
`delete`. -/
def applyDiffs (m : List (String × Json)) (ds : List DiffRec) : List (String × Json) :=
  ds.foldl
    (fun acc d =>
      if d.diff_type = "delete" then acc.filter (fun kv => !(kv.1 == d.item_id))
      else dictInsert d.item_id d.new_item acc)
    m

/-- The add/update record `_compute_diff` emits for one `new_map` entry. -/
def addUpdRec (old_map : List (String × Json)) (ts : Nat)
    (kv : String × Json) : Option DiffRec :=
  match jLookup kv.1 old_map with
  | none => some ⟨"add", kv.1, .null, kv.2, ts⟩
  | some old_item =>
      if pyEq old_item kv.2 then none
      else some ⟨"update", kv.1, old_item, kv.2, ts⟩

/-- The delete record `_compute_diff` emits for one `old_map` entry. -/
def delRec (new_map : List (String × Json)) (ts : Nat)
    (kv : String × Json) : Option DiffRec :=
  match jLookup kv.1 new_map with
  | none => some ⟨"delete", kv.1, kv.2, .null, ts⟩
  | some _ => none

/-- First-occurrence deduplication (`seen` accumulates emitted keys). -/
def dedupFirstAux (seen : List String) : List String → List String
  | [] => []
  | x :: xs =>
      if seen.contains x then dedupFirstAux seen xs
      else x :: dedupFirstAux (x :: seen) xs

/-- The keys of a Python dict built by repeated insertion: first
occurrences, in order. -/
def dedupFirst (l : List String) : List String := dedupFirstAux [] l

/-- Lexicographic strict order on char lists by code point (kernel-reducible,
unlike `String.ltb`). -/
def charsLt : List Char → List Char → Bool
  | [], [] => false
  | [], _ :: _ => true
  | _ :: _, [] => false
  | c :: cs, d :: ds =>
      if c.toNat < d.toNat then true
      else if c.toNat = d.toNat then charsLt cs ds
      else false

/-- Lexicographic strict order on strings by code point; Python `str` `<`
(UTF-8 byte order agrees with code-point order). -/
def strLt (a b : String) : Bool := charsLt a.toList b.toList

/-! ## Projection filter and sort (`_apply_filters`, src/svc/activities.py:325-348) -/

/-- Python truthiness `bool(x)` of a parsed-JSON value. -/
def pyTruthy : Json → Bool
  | .null => false
  | .bool b => b
  | .num n => n != 0
  | .str s => s ≠ ""
  | .arr xs => !xs.isEmpty
  | .obj fs => !fs.isEmpty

/-- `row.get(k, None)` on a parsed row.  Rows reaching `_apply_filters` are
dicts; `.get` on a non-dict raises in Python and is unreachable here. -/
def pyGet (row : Json) (k : String) : Json :=
  match row with
  | .obj fs => (jLookup k fs).getD .null
  | _ => .null

/-- One `(field, value)` test of the `match` closure in `_apply_filters`
(src/svc/activities.py:330-339): membership `rv in v` (CPython compares
`item == rv` per element) when the filter value is a list, `rv == v`
otherwise. -/
def filterTest (rv v : Json) : Bool :=
  match v with
  | .arr vs => vs.any fun w => pyEq w rv
  | _ => pyEq rv v

/-- The `match(row)` closure: every filter entry must pass. -/
def rowMatch (filters : List (String × Json)) (row : Json) : Bool :=
  filters.all fun kv => filterTest (pyGet row kv.1) kv.2

mutual

/-- Python `<` between two sort keys; `Except.error` models `TypeError`
(e.g. `None < 1`, `1 < "a"`).  Python booleans are the integers 0/1 and
compare with numbers; lists compare lexicographically. -/
def pyLt : Json → Json → Except String Bool
  | .num a, .num b => pure (decide (a < b))
  | .num a, .bool b => pure (decide (a < (if b then (1 : Int) else 0)))
  | .bool a, .num b => pure (decide ((if a then (1 : Int) else 0) < b))
  | .bool a, .bool b => pure (decide ((if a then (1 : Int) else 0) < (if b then 1 else 0)))
  | .str a, .str b => pure (strLt a b)
  | .arr xs, .arr ys => pyLtList xs ys
  | _, _ => .error "TypeError"

/-- CPython list `<`: skip `==`-equal items, compare the first unequal
pair; a proper suffix relation otherwise. -/
def pyLtList : List Json → List Json → Except String Bool
  | [], [] => pure false
  | [], _ :: _ => pure true
  | _ :: _, [] => pure false
  | x :: xs, y :: ys => if pyEq x y then pyLtList xs ys else pyLt x y

end

/-- Two sort keys are mutually comparable when Python `<` raises neither way. -/
def pyComparable (a b : Json) : Bool :=
  (pyLt a b).toOption.isSome && (pyLt b a).toOption.isSome

/-- Python `<` restricted to comparable keys. -/
def pyLtB (a b : Json) : Bool := (pyLt a b).toOption.getD false

/-- All keys of the list pairwise comparable. -/
def allComparable : List Json → Bool
  | [] => true
  | k :: ks => ks.all (pyComparable k) && allComparable ks

/-- Insert into an already-sorted keyed list, after every element whose key
is strictly smaller and before equal keys (giving a stable sort). -/
def insertKeyed (lt : Json → Json → Bool) (p : Json × Json) :
    List (Json × Json) → List (Json × Json)
  | [] => [p]
  | q :: rest => if lt q.1 p.1 then q :: insertKeyed lt p rest else p :: q :: rest

/-- Stable insertion sort on (key, row) pairs. -/
def sortStable (lt : Json → Json → Bool) : List (Json × Json) → List (Json × Json)
  | [] => []
  | p :: ps => insertKeyed lt p (sortStable lt ps)

/-- The sort-key function `lambda x: x.get(by)`.  String-keyed rows hold no
binding for a non-string hashable `by`, so `.get` yields `None`. -/
def pyGetKey (row : Json) (b : Json) : Json :=
  match b with
  | .str s => pyGet row s
  | _ => .null

/-- `out.sort(key=lambda x: x.get(by), reverse=desc)`
(src/svc/activities.py:347).  CPython raises `TypeError` as soon as the
sort compares two incomparable keys; modelled as an error whenever the
keys are not pairwise comparable (exact for the lists of length ≤ 2 used
here, where every pair is compared), and as the unique stable order
otherwise (list.sort is stable, also under `reverse=True`).  An unhashable
`by` makes `x.get(by)` raise. -/
def pySortByKey (out : List Json) (b : Json) (desc : Bool) :
    Except String (List Json) :=
  match b with
  | .arr _ | .obj _ => .error "TypeError: unhashable type"
  | _ =>
      let keyed := out.map fun r => (pyGetKey r b, r)
      if allComparable (keyed.map Prod.fst) then
        .ok ((sortStable (if desc then fun a c => pyLtB c a else pyLtB) keyed).map Prod.snd)
      else .error "TypeError: not supported between instances"

/-- `_apply_filters(rows, ctx)` (src/svc/activities.py:325-348).  `ctx` is
the parsed user-context JSON; through the pydantic `Ctx` model its
`filters` and `sort` entries are dicts or `None`.  When a truthy `sort`
is not a dict (unreachable through `Ctx`) the embedding returns the
unsorted rows. -/
def apply_filters (rows : List Json) (ctx : Json) : Except String (List Json) :=
  let filtersJ := pyGet ctx "filters"
  if !pyTruthy filtersJ then .ok rows
  else
    match filtersJ with
    | .obj fs =>
        let out := rows.filter (rowMatch fs)
        match pyGet ctx "sort" with
        | .obj gs =>
            if !(gs.isEmpty) then
              match jLookup "by" gs with
              | some b =>
                  pySortByKey out b (pyTruthy ((jLookup "desc" gs).getD (.bool false)))
              | none => .ok out
            else .ok out
        | _ => .ok out
    | _ => .error "AttributeError"

/-! ## `orjson.dumps` serialization and SHA-256

The service computes `checksum = sha256(orjson.dumps(rows)).hexdigest()`
(src/svc/app.py:39) and `diff_checksum = sha256(orjson.dumps(diffs)).hexdigest()`
(src/svc/activities.py:191,209).  `orjson.dumps` is called WITHOUT
`OPT_SORT_KEYS`: object keys are emitted in their stored (insertion)
order, with compact separators and standard JSON escapes. -/

/-- JSON string escaping as `orjson` performs it: `"` and `\` escaped,
control characters via the short escapes / `\uXXXX`; other characters
emitted raw (UTF-8). -/
def jsonEscapeChar (c : Char) : String :=
  if c = '"' then "\\\""
  else if c = '\\' then "\\\\"
  else if c = '\n' then "\\n"
  else if c = '\r' then "\\r"
  else if c = '\t' then "\\t"
  else if c.toNat = 8 then "\\b"
  else if c.toNat = 12 then "\\f"
  else if c.toNat < 32 then
    "\\u00" ++ String.mk [Nat.toDigits 16 (c.toNat / 16) |>.headD '0',
                          Nat.toDigits 16 (c.toNat % 16) |>.headD '0']
  else String.singleton c

def jsonEscape (s : String) : String :=
  String.join (s.toList.map jsonEscapeChar)

mutual

/-- `orjson.dumps` of a parsed value, as a string (compact separators,
insertion-ordered object keys — no `OPT_SORT_KEYS`). -/
def orjsonDumps : Json → String
  | .null => "null"
  | .bool b => if b then "true" else "false"
  | .num n => toString n
  | .str s => "\"" ++ jsonEscape s ++ "\""
  | .arr xs => "[" ++ orjsonDumpsList xs ++ "]"
  | .obj fs => "\x7b" ++ orjsonDumpsFields fs ++ "\x7d"

/-- Comma-joined serializations of array elements. -/
def orjsonDumpsList : List Json → String
  | [] => ""
  | [x] => orjsonDumps x
  | x :: y :: rest => orjsonDumps x ++ "," ++ orjsonDumpsList (y :: rest)

/-- Comma-joined `"key":value` serializations of object fields. -/
def orjsonDumpsFields : List (String × Json) → String
  | [] => ""
  | [(k, v)] => "\"" ++ jsonEscape k ++ "\":" ++ orjsonDumps v
  | (k, v) :: q :: rest =>
      "\"" ++ jsonEscape k ++ "\":" ++ orjsonDumps v ++ "," ++
        orjsonDumpsFields (q :: rest)

end

/-- Insert a field into a key-sorted field list (ascending by key). -/
def insertField (p : String × Json) : List (String × Json) → List (String × Json)
  | [] => [p]
  | q :: rest => if strLt q.1 p.1 then q :: insertField p rest else p :: q :: rest

/-- Sort object fields by key (insertion sort). -/
def sortFields (fs : List (String × Json)) : List (String × Json) :=
  fs.foldr insertField []

/-- Fuel-bounded body of the spec's canonical serialization; `fuel`
exceeds the value's depth whenever `canonicalDumps` supplies it. -/
def canonicalDumpsFuel : Nat → Json → String
  | 0, _ => ""
  | fuel + 1, j =>
      match j with
      | .null => "null"
      | .bool b => if b then "true" else "false"
      | .num n => toString n
      | .str s => "\"" ++ jsonEscape s ++ "\""
      | .arr xs =>
          "[" ++ String.intercalate "," (xs.map (canonicalDumpsFuel fuel)) ++ "]"
      | .obj fs =>
          "\x7b" ++
            String.intercalate ","
              ((sortFields fs).map fun p =>
                "\"" ++ jsonEscape p.1 ++ "\":" ++ canonicalDumpsFuel fuel p.2) ++
          "\x7d"

/-- The spec's canonical serialization: UTF-8 JSON with FIELD-SORTED maps.
Modelled from the spec: "all payloads are canonical JSON with UTF-8
encoding, field-sorted maps where a checksum is computed over them" —
this function exists only to compare the spec's checksum contract with
the code's (`orjsonDumps`). -/
def canonicalDumps (j : Json) : String :=
  canonicalDumpsFuel ((orjsonDumps j).length + 1) j

/-- UTF-8 encoding of a string as a byte list. -/
def utf8Encode (s : String) : List Nat :=
  s.toList.flatMap fun c =>
    let n := c.toNat
    if n < 128 then [n]
    else if n < 2048 then [192 + n / 64, 128 + n % 64]
    else if n < 65536 then [224 + n / 4096, 128 + n / 64 % 64, 128 + n % 64]
    else [240 + n / 262144, 128 + n / 4096 % 64, 128 + n / 64 % 64, 128 + n % 64]

/-! ### SHA-256 (FIPS 180-4), over byte lists -/

def w32 (x : Nat) : Nat := x % 4294967296

def rotr32 (n x : Nat) : Nat :=
  w32 ((x >>> n) ||| (x <<< (32 - n)))

def sha256K : List Nat :=
  [1116352408, 1899447441, 3049323471, 3921009573, 961987163, 1508970993,
   2453635748, 2870763221, 3624381080, 310598401, 607225278, 1426881987,
   1925078388, 2162078206, 2614888103, 3248222580, 3835390401, 4022224774,
   264347078, 604807628, 770255983, 1249150122, 1555081692, 1996064986,
   2554220882, 2821834349, 2952996808, 3210313671, 3336571891, 3584528711,
   113926993, 338241895, 666307205, 773529912, 1294757372, 1396182291,
   1695183700, 1986661051, 2177026350, 2456956037, 2730485921, 2820302411,
   3259730800, 3345764771, 3516065817, 3600352804, 4094571909, 275423344,
   430227734, 506948616, 659060556, 883997877, 958139571, 1322822218,
   1537002063, 1747873779, 1955562222, 2024104815, 2227730452, 2361852424,
   2428436474, 2756734187, 3204031479, 3329325298]

def sha256Pad (msg : List Nat) : List Nat :=
  let len := msg.length
  let bitLen := len * 8
  let padZeros := (119 - len % 64) % 64
  msg ++ [128] ++ List.replicate padZeros 0 ++
    [bitLen / 2 ^ 56 % 256, bitLen / 2 ^ 48 % 256, bitLen / 2 ^ 40 % 256,
     bitLen / 2 ^ 32 % 256, bitLen / 2 ^ 24 % 256, bitLen / 2 ^ 16 % 256,
     bitLen / 2 ^ 8 % 256, bitLen % 256]

/-- Split a byte list into 64-byte blocks of 16 32-bit big-endian words;
`fuel` bounds the number of blocks (structural recursion keeps the
function kernel-reducible). -/
def sha256BlocksGo : Nat → List Nat → List (List Nat)
  | 0, _ => []
  | _, [] => []
  | fuel + 1, b0 :: rest =>
      let bytes := b0 :: rest
      let block := bytes.take 64
      let words := (List.range 16).map fun i =>
        block.getD (4 * i) 0 * 16777216 + block.getD (4 * i + 1) 0 * 65536 +
          block.getD (4 * i + 2) 0 * 256 + block.getD (4 * i + 3) 0
      words :: sha256BlocksGo fuel (bytes.drop 64)

def sha256Blocks (bytes : List Nat) : List (List Nat) :=
  sha256BlocksGo bytes.length bytes

/-- Message schedule: extend 16 words to 64. -/
def sha256Schedule (ws : List Nat) (i : Nat) : List Nat :=
  match i with
  | 0 => ws
  | j + 1 =>
      let ws' := sha256Schedule ws j
      let t := 16 + j
      let w15 := ws'.getD (t - 15) 0
      let w2 := ws'.getD (t - 2) 0
      let s0 := (rotr32 7 w15) ^^^ (rotr32 18 w15) ^^^ (w15 >>> 3)
      let s1 := (rotr32 17 w2) ^^^ (rotr32 19 w2) ^^^ (w2 >>> 10)
      ws' ++ [w32 (ws'.getD (t - 16) 0 + s0 + ws'.getD (t - 7) 0 + s1)]

def sha256Compress (h : List Nat) (block : List Nat) : List Nat :=
  let ws := sha256Schedule block 48
  let final := (List.range 64).foldl
    (fun (st : List Nat) t =>
      let a := st.getD 0 0
      let b := st.getD 1 0
      let c := st.getD 2 0
      let d := st.getD 3 0
      let e := st.getD 4 0
      let f := st.getD 5 0
      let g := st.getD 6 0
      let hh := st.getD 7 0
      let S1 := (rotr32 6 e) ^^^ (rotr32 11 e) ^^^ (rotr32 25 e)
      let ch := (e &&& f) ^^^ ((4294967295 - e) &&& g)
      let temp1 := w32 (hh + S1 + ch + sha256K.getD t 0 + ws.getD t 0)
      let S0 := (rotr32 2 a) ^^^ (rotr32 13 a) ^^^ (rotr32 22 a)
      let maj := (a &&& b) ^^^ (a &&& c) ^^^ (b &&& c)
      let temp2 := w32 (S0 + maj)
      [w32 (temp1 + temp2), a, b, c, w32 (d + temp1), e, f, g])
    h
  (List.range 8).map fun i => w32 (h.getD i 0 + final.getD i 0)

def sha256Init : List Nat :=
  [1779033703, 3144134277, 1013904242, 2773480762,
   1359893119, 2600822924, 528734635, 1541459225]

def hexDigit (n : Nat) : Char :=
  if n < 10 then Char.ofNat (48 + n) else Char.ofNat (87 + n)

def word32Hex (x : Nat) : String :=
  String.mk ((List.range 8).map fun i => hexDigit (x / 16 ^ (7 - i) % 16))

/-- `hashlib.sha256(bytes).hexdigest()`. -/
def sha256Hex (msg : List Nat) : String :=
  let hs := ((sha256Blocks (sha256Pad msg)).foldl sha256Compress sha256Init)
  String.join (hs.map word32Hex)

/-- The checksum the upload handler computes
(`hashlib.sha256(orjson.dumps(body.rows)).hexdigest()`, src/svc/app.py:39). -/
def uploadChecksum (rows : List Json) : String :=
  sha256Hex (utf8Encode (orjsonDumps (.arr rows)))

/-- SHA-256 of the spec's canonical (field-sorted) serialization; used only
to compare the claimed checksum contract with the code's. -/
def canonicalChecksum (rows : List Json) : String :=
  sha256Hex (utf8Encode (canonicalDumps (.arr rows)))

/-! ## Durable state and the ingest pipeline

The MySQL tables the continent pipeline touches, plus the Redis `seen:`
admission keys.  `autocommit=True` (src/svc/db.py:5-14) makes every SQL
statement individually durable and visible, so the commit activity is
embedded as the list of states after each statement. -/

/-- One row of `continent_versions`. -/
structure VersionRec where
  dataset_id : String
  version : String
  checksum : String
  ts : Nat
  parent_version : Option String
  diff_checksum : Option String
  status : String
deriving DecidableEq, Repr

/-- One row of `continent_rows` (`item` is a JSON column; rows are listed
in insertion order, the order of the auto-increment primary key). -/
structure RowRec where
  dataset_id : String
  version : String
  item : Json
deriving DecidableEq, Repr

/-- One row of `continent_diffs`: `old_item` / `new_item` are serialized
JSON text columns or NULL. -/
structure DiffRow where
  dataset_id : String
  version : String
  diff_type : String
  item_id : String
  old_item : Option String
  new_item : Option String
  ts : Nat
deriving DecidableEq, Repr

/-- The durable state: the three continent tables and the Redis `seen:`
map (`seen:{dataset_id}:{version}` → first-seen checksum). -/
structure DBState where
  continent_versions : List VersionRec
  continent_rows : List RowRec
  continent_diffs : List DiffRow
  seen : List ((String × String) × String)
deriving DecidableEq, Repr

def DBState.empty : DBState := ⟨[], [], [], []⟩

/-- `validate_continent` (src/svc/activities.py:80-96).  The 24-hour TTL
of the `seen:` key is not modelled (every claim acts within it); `n_rows`
is a Python `len()`, hence `Nat`, making the negative-length check
vacuous. -/
def validate_continent (st : DBState) (dataset_id version checksum : String)
    (n_rows : Nat) : Except String DBState :=
  if dataset_id = "" ∨ version = "" ∨ checksum = "" then .error "Missing fields"
  else if n_rows > 10000 then .error "Dataset too large"
  else
    match st.seen.lookup (dataset_id, version) with
    | none => .ok { st with seen := st.seen ++ [((dataset_id, version), checksum)] }
    | some prev =>
        if prev ≠ "" ∧ prev ≠ checksum then
          .error "Checksum mismatch for same dataset+version"
        else .ok st

/-- `SELECT version FROM continent_versions WHERE dataset_id=%s ORDER BY
ts DESC LIMIT 1` (src/svc/activities.py:149-151) — note: no `status`
filter, and the version currently being ingested is not excluded.  Ties
in `ts` return the first table row (InnoDB scan order); no claim
exercises a tie. -/
def latestVersion (st : DBState) (dataset_id : String) : Option String :=
  ((st.continent_versions.filter fun r => r.dataset_id == dataset_id).foldl
    (fun acc r =>
      match acc with
      | none => some r
      | some m => if r.ts > m.ts then some r else acc)
    none).map (·.version)

/-- `SELECT item FROM continent_rows WHERE dataset_id=%s AND version=%s`
(src/svc/activities.py:158), in table (insertion) order. -/
def rowsFor (st : DBState) (d v : String) : List Json :=
  (st.continent_rows.filter fun r => r.dataset_id == d && r.version == v).map (·.item)

/-- The in-memory diff dict as a JSON value, in the Python dict literal's
key order — the exact payload `orjson.dumps(diffs)` serializes. -/
def diffRecToJson (d : DiffRec) : Json :=
  .obj [("diff_type", .str d.diff_type), ("item_id", .str d.item_id),
        ("old_item", d.old_item), ("new_item", d.new_item), ("ts", .num d.ts)]

/-- `hashlib.sha256(orjson.dumps(diffs)).hexdigest()`
(src/svc/activities.py:191,209). -/
def diffsChecksum (ds : List DiffRec) : String :=
  sha256Hex (utf8Encode (orjsonDumps (.arr (ds.map diffRecToJson))))

/-- `orjson.dumps(x).decode() if x else None` (src/svc/activities.py:171-172):
the stored text column, NULL when the in-memory value is falsy. -/
def storedItem (j : Json) : Option String :=
  if pyTruthy j then some (orjsonDumps j) else none

/-- The tuple inserted into `continent_diffs` for one diff record
(src/svc/activities.py:169-174). -/
def diffToRow (dataset_id version : String) (d : DiffRec) : DiffRow :=
  ⟨dataset_id, version, d.diff_type, d.item_id,
    storedItem d.old_item, storedItem d.new_item, d.ts⟩

/-- As `diffToRow`, for the first-version branch
(src/svc/activities.py:216-219): `old_item` is the literal NULL and
`new_item` is serialized without a truthiness check. -/
def diffToRowFirst (dataset_id version : String) (d : DiffRec) : DiffRow :=
  ⟨dataset_id, version, d.diff_type, d.item_id, none, some (orjsonDumps d.new_item), d.ts⟩

/-- The diff activity's return payload (src/svc/activities.py:235). -/
structure DiffResult where
  parent_version : Option String
  diff_checksum : String
  diff_count : Nat
deriving DecidableEq, Repr

/-- The first-version branch of the diff activity
(src/svc/activities.py:192-207): every row with an id becomes an `add`
delta, rows without an id are skipped. -/
def firstVersionDiffs (rows : List Json) (now : Nat) : List DiffRec :=
  rows.filterMap fun item =>
    (extract_id item).map fun k => (⟨"add", k, .null, item, now⟩ : DiffRec)

/-- `compute_continent_diff` (src/svc/activities.py:142-242).  The batched
`INSERT INTO continent_diffs` statements (batch 500) are modelled as one
append — no claim observes a state between diff batches.  `now` is the
`_now()` reading stamped on the delta records. -/
def compute_continent_diff (st : DBState) (dataset_id version : String)
    (rows : List Json) (now : Nat) : DBState × DiffResult :=
  match latestVersion st dataset_id with
  | some parent =>
      let prev_rows := rowsFor st dataset_id parent
      let diffs := compute_diff prev_rows rows now
      ({ st with continent_diffs :=
          st.continent_diffs ++ diffs.map (diffToRow dataset_id version) },
       ⟨some parent, diffsChecksum diffs, diffs.length⟩)
  | none =>
      let diffs := firstVersionDiffs rows now
      ({ st with continent_diffs :=
          st.continent_diffs ++ diffs.map (diffToRowFirst dataset_id version) },
       ⟨none, diffsChecksum diffs, diffs.length⟩)

/-- The delta record list one run of the diff activity computes
(both branches of src/svc/activities.py:147-214): against the latest
version's stored rows when a parent exists, else the all-adds first-version
list.  `compute_continent_diff` hashes exactly this list. -/
def ingestDeltas (st : DBState) (dataset_id : String) (rows : List Json)
    (now : Nat) : List DiffRec :=
  match latestVersion st dataset_id with
  | some parent => compute_diff (rowsFor st dataset_id parent) rows now
  | none => firstVersionDiffs rows now

/-- The `continent_diffs` rows the same run appends
(src/svc/activities.py:163-187 and 211-231) — appends only: no prior
delta row of the version is deleted. -/
def ingestDeltaRows (st : DBState) (dataset_id version : String)
    (rows : List Json) (now : Nat) : List DiffRow :=
  match latestVersion st dataset_id with
  | some _ => (ingestDeltas st dataset_id rows now).map (diffToRow dataset_id version)
  | none => (ingestDeltas st dataset_id rows now).map (diffToRowFirst dataset_id version)

/-- Split a list into batches of `B` (the executemany chunks); `fuel`
keeps the recursion structural. -/
def batchesGo (B : Nat) : Nat → List α → List (List α)
  | 0, _ => []
  | _, [] => []
  | fuel + 1, l => l.take B :: batchesGo B fuel (l.drop B)

def batchesOf (B : Nat) (l : List α) : List (List α) :=
  batchesGo B l.length l

/-- The `INSERT ... ON DUPLICATE KEY UPDATE` version upsert
(src/svc/activities.py:252-265): every non-key field is overwritten and
`status` is set to 'ready'. -/
def upsertVersion (st : DBState) (r : VersionRec) : DBState :=
  if st.continent_versions.any fun q =>
      q.dataset_id == r.dataset_id && q.version == r.version then
    { st with continent_versions := st.continent_versions.map fun q =>
        if q.dataset_id == r.dataset_id && q.version == r.version then r else q }
  else
    { st with continent_versions := st.continent_versions ++ [r] }

/-- `commit_continent_data` (src/svc/activities.py:244-300) as the list of
durable states after each autocommitted statement: the version upsert
(which already sets `status = 'ready'`), the row DELETE, then one INSERT
per batch of 1,000 rows.  Every state in the list is observable by a
concurrent reader. -/
def commitTrace (st : DBState) (dataset_id version checksum : String)
    (rows : List Json) (parent_version : Option String)
    (diff_checksum : Option String) (now : Nat) : List DBState :=
  let st1 := upsertVersion st
    ⟨dataset_id, version, checksum, now, parent_version, diff_checksum, "ready"⟩
  let st2 := { st1 with continent_rows := st1.continent_rows.filter fun r =>
      !(r.dataset_id == dataset_id && r.version == version) }
  st1 :: (batchesOf 1000 rows).scanl
    (fun s batch =>
      { s with continent_rows :=
          s.continent_rows ++ batch.map fun j => ⟨dataset_id, version, j⟩ })
    st2

/-- The state `commit_continent_data` leaves behind. -/
def commit_continent_data (st : DBState) (dataset_id version checksum : String)
    (rows : List Json) (parent_version : Option String)
    (diff_checksum : Option String) (now : Nat) : DBState :=
  (commitTrace st dataset_id version checksum rows parent_version diff_checksum now).getLastD st

/-- `ContinentIngestWorkflow.run` (src/svc/workflows.py:4-41), restricted
to the durable state: validate → (cache: writes only the snapshot caches,
which no claim reads; omitted) → diff → commit; fanout is a pure
publish.  `nowDiff` / `nowCommit` are the `_now()` readings of the diff
and commit steps. -/
def ingestWorkflow (st : DBState) (dataset_id version checksum : String)
    (rows : List Json) (nowDiff nowCommit : Nat) : Except String DBState := do
  let st ← validate_continent st dataset_id version checksum rows.length
  let (st, dr) := compute_continent_diff st dataset_id version rows nowDiff
  .ok (commit_continent_data st dataset_id version checksum rows
        dr.parent_version (some dr.diff_checksum) nowCommit)

/-- The version record a reader sees for `(d, v)` after filtering
`status = 'ready'` (src/svc/app.py:97-105). -/
def readyVersion (st : DBState) (d v : String) : Option VersionRec :=
  (st.continent_versions.filter fun r =>
    r.dataset_id == d && r.version == v && r.status == "ready").head?

/-- The version record for `(d, v)` regardless of status. -/
def versionOf (st : DBState) (d v : String) : Option VersionRec :=
  (st.continent_versions.filter fun r =>
    r.dataset_id == d && r.version == v).head?

/-- The version identifier the upload handler derives:
`version = f"v{ts}.{checksum[:8]}"` (src/svc/app.py:40). -/
def mkVersion (now : Nat) (checksum : String) : String :=
  "v" ++ toString now ++ "." ++ String.mk (checksum.toList.take 8)

/-- `upload_continent` (src/svc/app.py:31-57): rejects empty row lists,
derives `checksum = sha256(orjson.dumps(rows)).hexdigest()` and the
version identifier, then starts the ingest workflow.  `now` is the
handler's `int(time.time())` reading. -/
def upload_continent (st : DBState) (dataset_id : String) (rows : List Json)
    (now nowDiff nowCommit : Nat) : Except String DBState :=
  if rows.isEmpty then .error "rows[] required"
  else
    ingestWorkflow st dataset_id (mkVersion now (uploadChecksum rows))
      (uploadChecksum rows) rows nowDiff nowCommit

/-- `get_incremental_update` (src/svc/app.py:220-257): the existence check
`WHERE ... version IN (%s, %s) AND status = 'ready'` must return exactly
two rows, else 404; the target version's diffs are returned ordered by
`ts` (stable within equal `ts`). -/
def get_incremental_update (st : DBState)
    (dataset_id from_version to_version : String) : Except String (List DiffRow) :=
  let versions := (st.continent_versions.filter fun r =>
    r.dataset_id == dataset_id &&
      (r.version == from_version || r.version == to_version) &&
      r.status == "ready").map (·.version)
  if versions.length = 2 then
    .ok ((st.continent_diffs.filter fun q =>
      q.dataset_id == dataset_id && q.version == to_version).mergeSort
        fun a b => decide (a.ts ≤ b.ts))
  else .error "One or both versions not found"

/-! ## Concrete scenarios used by the claim theorems -/

/-- The example row `{"id": "1", "s": "a"}`. -/
def exRow : Json := .obj [("id", .str "1"), ("s", .str "a")]

/-- First ingest of `("d", "v1")` from the empty store (diff step clock 1,
commit clock 2). -/
def exIngest1 : Except String DBState :=
  ingestWorkflow DBState.empty "d" "v1" "c1" [exRow] 1 2

/-- The durable state after the first ingest. -/
def exSt1 : DBState := exIngest1.toOption.getD DBState.empty

/-- Reingest of the identical payload with the identical arguments
(diff step clock 3, commit clock 4). -/
def exIngest2 : Except String DBState :=
  ingestWorkflow exSt1 "d" "v1" "c1" [exRow] 3 4

/-- A row whose keys are not in sorted order: `{"b": 0, "a": 0}`. -/
def exRowBA : Json := .obj [("b", .num 0), ("a", .num 0)]

/-- The version identifier the upload handler derives for `[exRowBA]` at
clock 1. -/
def exVerBA : String := mkVersion 1 (uploadChecksum [exRowBA])

/-- Fresh upload of `[exRowBA]` (handler clock 1, diff clock 2, commit
clock 3). -/
def exUploadBA : Except String DBState :=
  upload_continent DBState.empty "d" [exRowBA] 1 2 3

/-- The durable state after `exUploadBA`. -/
def exStBA : DBState := exUploadBA.toOption.getD DBState.empty

/-- Re-upload of the identical payload at the same handler clock: the
derived version identifier repeats, so this is a reingest of `exVerBA`
driven through the parent branch of the diff step. -/
def exUploadBA2 : Except String DBState :=
  upload_continent exStBA "d" [exRowBA] 1 5 6

/-- The durable state after the reingest `exUploadBA2`. -/
def exStBA2 : DBState := exUploadBA2.toOption.getD DBState.empty

/-- A context with an empty filters map and an ascending sort on
`amount` (the pydantic `Ctx` serializes absent filters as `null`;
`{}` behaves identically — both are falsy). -/
def exCtxSortOnly : Json :=
  .obj [("filters", .null), ("sort", .obj [("by", .str "amount")]),
        ("selection", .null)]

/-- `{"id": "1", "amount": 2}`. -/
def exRowAmount2 : Json := .obj [("id", .str "1"), ("amount", .num 2)]

/-- `{"id": "2", "amount": 1}`. -/
def exRowAmount1 : Json := .obj [("id", .str "2"), ("amount", .num 1)]

/-- Spec scenario 6 rows: `{"id":"1",status:"new",country:"IN",amount:1200}`. -/
def exOrder1 : Json :=
  .obj [("id", .str "1"), ("status", .str "new"), ("country", .str "IN"),
        ("amount", .num 1200)]

/-- `{"id":"2",status:"shipped",country:"US",amount:800}`. -/
def exOrder2 : Json :=
  .obj [("id", .str "2"), ("status", .str "shipped"), ("country", .str "US"),
        ("amount", .num 800)]

/-- `{"id":"3",status:"new",country:"IN",amount:1500}`. -/
def exOrder3 : Json :=
  .obj [("id", .str "3"), ("status", .str "new"), ("country", .str "IN"),
        ("amount", .num 1500)]

/-- Spec scenario 6 context:
`filters={status:["new"],country:"IN"}, sort={by:"amount",desc:true}`. -/
def exCtxFilterSort : Json :=
  .obj [("filters", .obj [("status", .arr [.str "new"]), ("country", .str "IN")]),
        ("sort", .obj [("by", .str "amount"), ("desc", .bool true)]),
        ("selection", .null)]

/-! ## Helper lemmas -/

-- jLookup / dictInsert basics
theorem jLookup_mem {k : String} {v : Json} :
    ∀ {l : List (String × Json)}, jLookup k l = some v → (k, v) ∈ l := by
  intro l
  induction l with
  | nil => intro h; simp [jLookup] at h
  | cons p rest ih =>
      obtain ⟨p1, p2⟩ := p
      intro h
      unfold jLookup at h
      by_cases heq : p1 = k
      · rw [if_pos heq] at h
        injection h with h
        subst h heq
        exact List.mem_cons_self _ _
      · rw [if_neg heq] at h
        exact List.mem_cons.mpr (Or.inr (ih h))

theorem jLookup_eq_of_mem_nodup {k : String} {v : Json} :
    ∀ {l : List (String × Json)}, keysNodup l = true → (k, v) ∈ l →
      jLookup k l = some v := by
  intro l
  induction l with
  | nil => intro _ h; simp at h
  | cons p rest ih =>
      intro hnd hm
      unfold keysNodup at hnd
      simp only [Bool.and_eq_true, Bool.not_eq_true', List.any_eq_false] at hnd
      obtain ⟨hnin, hnd'⟩ := hnd
      rcases List.mem_cons.mp hm with h | h
      · subst h
        simp [jLookup]
      · have hkne : p.1 ≠ k := by
          intro he
          have := hnin (k, v) h
          simp [he] at this
        unfold jLookup
        obtain ⟨p1, p2⟩ := p
        simp only at hkne
        rw [if_neg hkne]
        exact ih hnd' h

theorem jLookup_isSome_iff {k : String} :
    ∀ {l : List (String × Json)}, (jLookup k l).isSome = true ↔
      k ∈ l.map Prod.fst := by
  intro l
  induction l with
  | nil => simp [jLookup]
  | cons p rest ih =>
      unfold jLookup
      by_cases h : p.1 = k
      · simp [h]
      · obtain ⟨p1, p2⟩ := p
        simp only at h
        rw [if_neg h]
        simp [ih, h]
        intro he
        exact absurd he.symm h

theorem dictInsert_append {k : String} {v : Json} :
    ∀ {m : List (String × Json)}, k ∉ m.map Prod.fst →
      dictInsert k v m = m ++ [(k, v)] := by
  intro m
  induction m with
  | nil => intro _; rfl
  | cons p rest ih =>
      intro hnin
      simp only [List.map_cons, List.mem_cons] at hnin
      push_neg at hnin
      unfold dictInsert
      rw [if_neg (by exact fun h => hnin.1 h.symm)]
      rw [ih hnin.2]
      rfl

theorem jsonDepth_pos : ∀ j : Json, 1 ≤ jsonDepth j := by
  intro j
  cases j <;> simp [jsonDepth]

theorem mem_depthList {x : Json} :
    ∀ {xs : List Json}, x ∈ xs → jsonDepth x ≤ jsonDepthList xs := by
  intro xs
  induction xs with
  | nil => intro h; simp at h
  | cons y ys ih =>
      intro h
      unfold jsonDepthList
      rcases List.mem_cons.mp h with h | h
      · subst h; exact le_max_left _ _
      · exact le_trans (ih h) (le_max_right _ _)

theorem mem_depthFields {k : String} {v : Json} :
    ∀ {fs : List (String × Json)}, (k, v) ∈ fs →
      jsonDepth v ≤ jsonDepthFields fs := by
  intro fs
  induction fs with
  | nil => intro h; simp at h
  | cons p ps ih =>
      intro h
      unfold jsonDepthFields
      rcases List.mem_cons.mp h with h | h
      · rw [← h]; exact le_max_left _ _
      · exact le_trans (ih h) (le_max_right _ _)

theorem all_congr {α : Type} {f g : α → Bool} :
    ∀ {l : List α}, (∀ x ∈ l, f x = g x) → l.all f = l.all g := by
  intro l
  induction l with
  | nil => intro _; rfl
  | cons x xs ih =>
      intro h
      simp only [List.all_cons]
      rw [h x (List.mem_cons_self _ _), ih fun y hy => h y (List.mem_cons.mpr (Or.inr hy))]

theorem pyEqFuel_congr :
    ∀ (f1 : Nat), ∀ {f2 : Nat} {a b : Json}, jsonDepth a ≤ f1 → jsonDepth a ≤ f2 →
      pyEqFuel f1 a b = pyEqFuel f2 a b := by
  intro f1
  induction f1 with
  | zero =>
      intro f2 a b h1 _
      have := jsonDepth_pos a
      omega
  | succ n ih =>
      intro f2 a b h1 h2
      match f2, (jsonDepth_pos a).trans h2 with
      | f2 + 1, _ =>
      cases a with
      | null => cases b <;> rfl
      | bool x => cases b <;> rfl
      | num x => cases b <;> rfl
      | str x => cases b <;> rfl
      | arr xs =>
          cases b with
          | arr ys =>
              show (xs.length == ys.length && (xs.zip ys).all fun p => pyEqFuel n p.1 p.2) =
                (xs.length == ys.length && (xs.zip ys).all fun p => pyEqFuel f2 p.1 p.2)
              have hd : jsonDepthList xs ≤ n := by
                have : jsonDepth (.arr xs) = jsonDepthList xs + 1 := rfl
                omega
              have hd2 : jsonDepthList xs ≤ f2 := by
                have : jsonDepth (.arr xs) = jsonDepthList xs + 1 := rfl
                omega
              congr 1
              apply all_congr
              intro p hp
              have hx : p.1 ∈ xs := (List.of_mem_zip hp).1
              exact ih (le_trans (mem_depthList hx) hd)
                (le_trans (mem_depthList hx) hd2)
          | null => rfl
          | bool y => rfl
          | num y => rfl
          | str y => rfl
          | obj gs => rfl
      | obj fs =>
          cases b with
          | obj gs =>
              show (fs.length == gs.length && fs.all fun kv =>
                  match jLookup kv.1 gs with
                  | some w => pyEqFuel n kv.2 w
                  | none => false) =
                (fs.length == gs.length && fs.all fun kv =>
                  match jLookup kv.1 gs with
                  | some w => pyEqFuel f2 kv.2 w
                  | none => false)
              have hd : jsonDepthFields fs ≤ n := by
                have : jsonDepth (.obj fs) = jsonDepthFields fs + 1 := rfl
                omega
              have hd2 : jsonDepthFields fs ≤ f2 := by
                have : jsonDepth (.obj fs) = jsonDepthFields fs + 1 := rfl
                omega
              congr 1
              apply all_congr
              intro kv hkv
              obtain ⟨k, v⟩ := kv
              have hv : jsonDepth v ≤ jsonDepthFields fs := mem_depthFields hkv
              cases hlk : jLookup k gs with
              | none => rfl
              | some w =>
                  simp only
                  exact ih (le_trans hv hd) (le_trans hv hd2)
          | null => rfl
          | bool y => rfl
          | num y => rfl
          | str y => rfl
          | arr ys => rfl

theorem pyEq_obj_eq (fs gs : List (String × Json)) :
    pyEq (.obj fs) (.obj gs) =
      (fs.length == gs.length && fs.all fun kv =>
        match jLookup kv.1 gs with
        | some w => pyEq kv.2 w
        | none => false) := by
  show pyEqFuel (jsonDepthFields fs + 1) (.obj fs) (.obj gs) = _
  show (fs.length == gs.length && fs.all fun kv =>
      match jLookup kv.1 gs with
      | some w => pyEqFuel (jsonDepthFields fs) kv.2 w
      | none => false) = _
  congr 1
  apply all_congr
  intro kv hkv
  obtain ⟨k, v⟩ := kv
  cases hlk : jLookup k gs with
  | none => rfl
  | some w =>
      simp only
      exact pyEqFuel_congr _ (mem_depthFields hkv) (le_refl _)

theorem zip_self {α : Type} : ∀ xs : List α, xs.zip xs = xs.map fun x => (x, x) := by
  intro xs
  induction xs with
  | nil => rfl
  | cons x xs ih => simp [List.zip_cons_cons, ih]

theorem wfJsonList_mem {x : Json} :
    ∀ {xs : List Json}, wfJsonList xs = true → x ∈ xs → wfJson x = true := by
  intro xs
  induction xs with
  | nil => intro _ h; simp at h
  | cons y ys ih =>
      intro hwf h
      unfold wfJsonList at hwf
      simp only [Bool.and_eq_true] at hwf
      rcases List.mem_cons.mp h with h | h
      · subst h; exact hwf.1
      · exact ih hwf.2 h

theorem wfJsonFields_mem {k : String} {v : Json} :
    ∀ {fs : List (String × Json)}, wfJsonFields fs = true → (k, v) ∈ fs →
      wfJson v = true := by
  intro fs
  induction fs with
  | nil => intro _ h; simp at h
  | cons p ps ih =>
      intro hwf h
      unfold wfJsonFields at hwf
      simp only [Bool.and_eq_true] at hwf
      rcases List.mem_cons.mp h with h | h
      · rw [← h] at hwf; exact hwf.1
      · exact ih hwf.2 h

theorem pyEq_refl :
    ∀ (n : Nat) (j : Json), jsonDepth j ≤ n → wfJson j = true → pyEq j j = true := by
  intro n
  induction n with
  | zero =>
      intro j h _
      have := jsonDepth_pos j
      omega
  | succ n ih =>
      intro j hd hwf
      cases j with
      | null => rfl
      | bool x => simp [pyEq, pyEqFuel, jsonDepth]
      | num x => simp [pyEq, pyEqFuel, jsonDepth]
      | str x => simp [pyEq, pyEqFuel, jsonDepth]
      | arr xs =>
          show pyEqFuel (jsonDepth (.arr xs)) (.arr xs) (.arr xs) = true
          have hdl : jsonDepth (Json.arr xs) = jsonDepthList xs + 1 := rfl
          rw [hdl]
          show (xs.length == xs.length &&
            (xs.zip xs).all fun p => pyEqFuel (jsonDepthList xs) p.1 p.2) = true
          simp only [beq_self_eq_true, Bool.true_and]
          rw [zip_self]
          apply List.all_eq_true.mpr
          intro p hp
          obtain ⟨x, hx, hxe⟩ := List.mem_map.mp hp
          subst hxe
          simp only
          have h1 : jsonDepth x ≤ jsonDepthList xs := mem_depthList hx
          rw [pyEqFuel_congr _ h1 (le_refl (jsonDepth x))]
          exact ih x (by rw [hdl] at hd; omega) (wfJsonList_mem hwf hx)
      | obj fs =>
          rw [pyEq_obj_eq]
          simp only [beq_self_eq_true, Bool.true_and]
          apply List.all_eq_true.mpr
          intro kv hkv
          obtain ⟨k, v⟩ := kv
          unfold wfJson at hwf
          simp only [Bool.and_eq_true] at hwf
          rw [jLookup_eq_of_mem_nodup hwf.1 hkv]
          have hdf : jsonDepth (Json.obj fs) = jsonDepthFields fs + 1 := rfl
          exact ih v (by have := mem_depthFields hkv; rw [hdf] at hd; omega)
            (wfJsonFields_mem hwf.2 hkv)

theorem keysNodup_perm {fs gs : List (String × Json)}
    (hperm : fs.Perm gs) (hnd : keysNodup fs = true) : keysNodup gs = true := by
  have hiff : ∀ l : List (String × Json), keysNodup l = true ↔ (l.map Prod.fst).Nodup := by
    intro l
    induction l with
    | nil => simp [keysNodup]
    | cons p ps ih =>
        unfold keysNodup
        simp only [Bool.and_eq_true, Bool.not_eq_true', List.any_eq_false, List.map_cons,
          List.nodup_cons, ih]
        constructor
        · intro ⟨h1, h2⟩
          refine ⟨?_, h2⟩
          intro hm
          obtain ⟨q, hq, hqe⟩ := List.mem_map.mp hm
          have := h1 q hq
          simp [hqe] at this
        · intro ⟨h1, h2⟩
          refine ⟨?_, h2⟩
          intro q hq
          have hne : q.1 ≠ p.1 := fun he => h1 (List.mem_map.mpr ⟨q, hq, he⟩)
          simpa using hne
  rw [hiff] at hnd ⊢
  exact (hperm.map Prod.fst).nodup_iff.mp hnd

/-- Update-vs-omit is decided by Python `==`, which ignores map key order:
a well-formed dict compares equal to any key-permutation of itself. -/
theorem pyEq_of_perm {fs gs : List (String × Json)}
    (hwf : wfJson (.obj fs) = true) (hperm : fs.Perm gs) :
    pyEq (.obj fs) (.obj gs) = true := by
  unfold wfJson at hwf
  simp only [Bool.and_eq_true] at hwf
  rw [pyEq_obj_eq]
  rw [hperm.length_eq]
  simp only [beq_self_eq_true, Bool.true_and]
  apply List.all_eq_true.mpr
  intro kv hkv
  obtain ⟨k, v⟩ := kv
  have hgs : (k, v) ∈ gs := hperm.mem_iff.mp hkv
  rw [jLookup_eq_of_mem_nodup (keysNodup_perm hperm hwf.1) hgs]
  exact pyEq_refl (jsonDepth v) v (le_refl _) (wfJsonFields_mem hwf.2 hkv)

theorem foldl_toList_append {α β : Type} (g : α → Option β) :
    ∀ (l : List α) (acc : List β),
      l.foldl (fun a x => a ++ (g x).toList) acc = acc ++ l.filterMap g := by
  intro l
  induction l with
  | nil => intro acc; simp
  | cons x xs ih =>
      intro acc
      rw [List.foldl_cons, ih]
      cases h : g x with
      | none => simp [List.filterMap_cons, h, Option.toList]
      | some r => simp [List.filterMap_cons, h, Option.toList]

theorem compute_diff_decomp (old_items new_items : List Json) (ts : Nat) :
    compute_diff old_items new_items ts =
      (buildMap new_items).filterMap (addUpdRec (buildMap old_items) ts) ++
        (buildMap old_items).filterMap (delRec (buildMap new_items) ts) := by
  have e1 : (fun (acc : List DiffRec) (kv : String × Json) =>
      match jLookup kv.1 (buildMap old_items) with
      | none => acc ++ [⟨"add", kv.1, .null, kv.2, ts⟩]
      | some old_item =>
          if pyEq old_item kv.2 then acc
          else acc ++ [⟨"update", kv.1, old_item, kv.2, ts⟩]) =
      fun acc kv => acc ++ (addUpdRec (buildMap old_items) ts kv).toList := by
    funext acc kv
    unfold addUpdRec
    cases jLookup kv.1 (buildMap old_items) with
    | none => rfl
    | some old_item =>
        by_cases hpe : pyEq old_item kv.2
        · simp [hpe, Option.toList]
        · simp [hpe, Option.toList]
  have e2 : (fun (acc : List DiffRec) (kv : String × Json) =>
      match jLookup kv.1 (buildMap new_items) with
      | none => acc ++ [⟨"delete", kv.1, kv.2, .null, ts⟩]
      | some _ => acc) =
      fun acc kv => acc ++ (delRec (buildMap new_items) ts kv).toList := by
    funext acc kv
    unfold delRec
    cases jLookup kv.1 (buildMap new_items) with
    | none => rfl
    | some _ => simp [Option.toList]
  unfold compute_diff
  by_cases hemp : old_items.isEmpty && new_items.isEmpty
  · rw [if_pos hemp]
    simp only [Bool.and_eq_true, List.isEmpty_iff] at hemp
    rw [hemp.1, hemp.2]
    rfl
  · rw [if_neg hemp]
    show List.foldl _ (List.foldl _ [] (buildMap new_items)) (buildMap old_items) = _
    rw [e1, e2, foldl_toList_append, foldl_toList_append]
    simp

theorem buildMap_skip {x : Json} (hx : extract_id x = none) (l : List Json) :
    buildMap (x :: l) = buildMap l := by
  unfold buildMap
  simp [List.foldl_cons, hx]

theorem dictInsert_keys_mem {k : String} {v : Json} :
    ∀ {m : List (String × Json)}, k ∈ m.map Prod.fst →
      (dictInsert k v m).map Prod.fst = m.map Prod.fst := by
  intro m
  induction m with
  | nil => intro h; simp at h
  | cons p rest ih =>
      intro h
      obtain ⟨p1, p2⟩ := p
      unfold dictInsert
      by_cases he : p1 = k
      · rw [if_pos he]
        simp [he]
      · rw [if_neg he]
        simp only [List.map_cons]
        rw [ih]
        simp only [List.map_cons, List.mem_cons] at h
        rcases h with h | h
        · exact absurd h.symm he
        · exact h

theorem buildMap_go_keys :
    ∀ (items : List Json) (m : List (String × Json)),
      ((items.foldl (fun m item =>
        match extract_id item with
        | some k => dictInsert k item m
        | none => m) m).map Prod.fst) =
      m.map Prod.fst ++ dedupFirstAux (m.map Prod.fst) (items.filterMap extract_id) := by
  have hcongr : ∀ (l : List String) (s1 s2 : List String),
      (∀ x, x ∈ s1 ↔ x ∈ s2) → dedupFirstAux s1 l = dedupFirstAux s2 l := by
    intro l
    induction l with
    | nil => intro s1 s2 _; rfl
    | cons x xs ih =>
        intro s1 s2 hiff
        unfold dedupFirstAux
        by_cases hm : x ∈ s1
        · rw [if_pos (by simpa using hm), if_pos (by simpa using (hiff x).mp hm)]
          exact ih s1 s2 hiff
        · rw [if_neg (by simpa using hm),
            if_neg (by simpa using fun hc => hm ((hiff x).mpr hc))]
          congr 1
          apply ih
          intro y
          simp [hiff y]
  intro items
  induction items with
  | nil => intro m; simp [dedupFirstAux]
  | cons x rest ih =>
      intro m
      rw [List.foldl_cons]
      cases hx : extract_id x with
      | none =>
          simp only [List.filterMap_cons, hx]
          exact ih m
      | some k =>
          simp only [List.filterMap_cons, hx]
          have hstep : ∀ (s : List String) (y : String) (l : List String),
              dedupFirstAux s (y :: l) =
                if s.contains y then dedupFirstAux s l
                else y :: dedupFirstAux (y :: s) l := fun _ _ _ => rfl
          by_cases hmem : k ∈ m.map Prod.fst
          · rw [ih (dictInsert k x m), dictInsert_keys_mem hmem, hstep,
              if_pos (by simpa using hmem)]
          · rw [ih (dictInsert k x m),
              show (dictInsert k x m).map Prod.fst = m.map Prod.fst ++ [k] by
                rw [dictInsert_append hmem]; simp,
              hstep, if_neg (by simpa using hmem),
              hcongr _ (m.map Prod.fst ++ [k]) (k :: m.map Prod.fst)
                (by intro y; simp; tauto)]
            simp

theorem buildMap_keys (items : List Json) :
    (buildMap items).map Prod.fst = dedupFirst (items.filterMap extract_id) := by
  unfold buildMap dedupFirst
  rw [buildMap_go_keys items []]
  rfl

theorem buildMap_eq :
    ∀ (items : List Json) (m : List (String × Json)),
      (items.filterMap extract_id).Nodup →
      (∀ k, k ∈ items.filterMap extract_id → k ∉ m.map Prod.fst) →
      items.foldl (fun m item =>
        match extract_id item with
        | some k => dictInsert k item m
        | none => m) m =
      m ++ items.filterMap fun x => (extract_id x).map fun k => (k, x) := by
  intro items
  induction items with
  | nil => intro m _ _; simp
  | cons x rest ih =>
      intro m hnd hdisj
      rw [List.foldl_cons]
      cases hx : extract_id x with
      | none =>
          simp only [List.filterMap_cons, hx] at hnd hdisj ⊢
          exact ih m hnd hdisj
      | some k =>
          simp only [List.filterMap_cons, hx] at hnd hdisj ⊢
          simp only [List.nodup_cons] at hnd
          have hkm : k ∉ m.map Prod.fst := hdisj k (List.mem_cons_self _ _)
          rw [dictInsert_append hkm]
          rw [ih (m ++ [(k, x)]) hnd.2 ?_]
          · simp [Option.map_some]
          · intro k' hk'
            simp only [List.map_append, List.mem_append]
            push_neg
            constructor
            · exact hdisj k' (List.mem_cons.mpr (Or.inr hk'))
            · intro hc
              simp at hc
              subst hc
              exact hnd.1 hk'

theorem keysNodup_iff : ∀ l : List (String × Json),
    keysNodup l = true ↔ (l.map Prod.fst).Nodup := by
  intro l
  induction l with
  | nil => simp [keysNodup]
  | cons p ps ih =>
      unfold keysNodup
      simp only [Bool.and_eq_true, Bool.not_eq_true', List.any_eq_false, List.map_cons,
        List.nodup_cons, ih]
      constructor
      · intro ⟨h1, h2⟩
        refine ⟨?_, h2⟩
        intro hm
        obtain ⟨q, hq, hqe⟩ := List.mem_map.mp hm
        have := h1 q hq
        simp [hqe] at this
      · intro ⟨h1, h2⟩
        refine ⟨?_, h2⟩
        intro q hq
        have hne : q.1 ≠ p.1 := fun he => h1 (List.mem_map.mpr ⟨q, hq, he⟩)
        simpa using hne

theorem jLookup_eq_none {k : String} {l : List (String × Json)}
    (h : k ∉ l.map Prod.fst) : jLookup k l = none := by
  cases hl : jLookup k l with
  | none => rfl
  | some v =>
      exact absurd (jLookup_isSome_iff.mp (by simp [hl])) h

theorem jLookup_cons (k p1 : String) (p2 : Json) (rest : List (String × Json)) :
    jLookup k ((p1, p2) :: rest) = if p1 = k then some p2 else jLookup k rest := rfl

theorem jLookup_dictInsert_self (k : String) (v : Json) :
    ∀ m : List (String × Json), jLookup k (dictInsert k v m) = some v := by
  intro m
  induction m with
  | nil => simp [dictInsert, jLookup]
  | cons p rest ih =>
      obtain ⟨p1, p2⟩ := p
      unfold dictInsert
      by_cases he : p1 = k
      · rw [if_pos he, jLookup_cons, if_pos rfl]
      · rw [if_neg he, jLookup_cons, if_neg he]
        exact ih

theorem jLookup_dictInsert_ne {k k' : String} (hne : k' ≠ k) (v : Json) :
    ∀ m : List (String × Json), jLookup k' (dictInsert k v m) = jLookup k' m := by
  intro m
  induction m with
  | nil =>
      show jLookup k' [(k, v)] = none
      rw [jLookup_cons, if_neg (fun h => hne h.symm)]
      rfl
  | cons p rest ih =>
      obtain ⟨p1, p2⟩ := p
      unfold dictInsert
      by_cases he : p1 = k
      · subst he
        rw [if_pos rfl, jLookup_cons, if_neg (fun h => hne h.symm),
          jLookup_cons, if_neg (fun h => hne h.symm)]
      · rw [if_neg he, jLookup_cons, jLookup_cons]
        by_cases he2 : p1 = k'
        · rw [if_pos he2, if_pos he2]
        · rw [if_neg he2, if_neg he2]
          exact ih

theorem jLookup_erase_self (k : String) :
    ∀ m : List (String × Json), jLookup k (m.filter fun kv => !(kv.1 == k)) = none := by
  intro m
  induction m with
  | nil => rfl
  | cons p rest ih =>
      obtain ⟨p1, p2⟩ := p
      by_cases he : p1 = k
      · rw [List.filter_cons_of_neg (by simp [he])]
        exact ih
      · rw [List.filter_cons_of_pos (by simp [he]), jLookup_cons, if_neg he]
        exact ih

theorem jLookup_erase_ne {k k' : String} (hne : k' ≠ k) :
    ∀ m : List (String × Json),
      jLookup k' (m.filter fun kv => !(kv.1 == k)) = jLookup k' m := by
  intro m
  induction m with
  | nil => rfl
  | cons p rest ih =>
      obtain ⟨p1, p2⟩ := p
      by_cases he : p1 = k
      · rw [List.filter_cons_of_neg (by simp [he]), jLookup_cons,
          if_neg (by rw [he]; exact fun h => hne h.symm)]
        exact ih
      · rw [List.filter_cons_of_pos (by simp [he]), jLookup_cons, jLookup_cons]
        by_cases he2 : p1 = k'
        · rw [if_pos he2, if_pos he2]
        · rw [if_neg he2, if_neg he2]
          exact ih

theorem applyDiffs_append (m : List (String × Json)) (as bs : List DiffRec) :
    applyDiffs m (as ++ bs) = applyDiffs (applyDiffs m as) bs := by
  unfold applyDiffs
  simp [List.foldl_append]

theorem applyDiffs_step (m : List (String × Json)) (d : DiffRec) :
    applyDiffs m [d] =
      if d.diff_type = "delete" then m.filter fun kv => !(kv.1 == d.item_id)
      else dictInsert d.item_id d.new_item m := rfl

theorem applyDiffs_no_key {k : String} :
    ∀ (ds : List DiffRec) (m : List (String × Json)),
      (∀ d ∈ ds, d.item_id ≠ k) →
      jLookup k (applyDiffs m ds) = jLookup k m := by
  intro ds
  induction ds with
  | nil => intro m _; rfl
  | cons d ds ih =>
      intro m hne
      show jLookup k (applyDiffs (applyDiffs m [d]) ds) = _
      rw [ih _ fun x hx => hne x (List.mem_cons.mpr (Or.inr hx))]
      rw [applyDiffs_step]
      have hdk : d.item_id ≠ k := hne d (List.mem_cons_self _ _)
      by_cases hdel : d.diff_type = "delete"
      · rw [if_pos hdel]
        exact jLookup_erase_ne (fun h => hdk h.symm) m
      · rw [if_neg hdel]
        exact jLookup_dictInsert_ne (fun h => hdk h.symm) d.new_item m

theorem addUpdRec_some {om : List (String × Json)} {ts : Nat} {k : String}
    {v : Json} {r : DiffRec} (h : addUpdRec om ts (k, v) = some r) :
    r.item_id = k ∧ r.new_item = v ∧ r.diff_type ≠ "delete" := by
  unfold addUpdRec at h
  replace h : (match jLookup k om with
      | none => some (⟨"add", k, .null, v, ts⟩ : DiffRec)
      | some old_item =>
          if pyEq old_item v then none
          else some ⟨"update", k, old_item, v, ts⟩) = some r := h
  cases hjl : jLookup k om with
  | none =>
      rw [hjl] at h
      injection h with h
      subst h
      refine ⟨rfl, rfl, ?_⟩
      intro hc
      simp at hc
  | some old_item =>
      rw [hjl] at h
      replace h : (if pyEq old_item v then none
          else some (⟨"update", k, old_item, v, ts⟩ : DiffRec)) = some r := h
      by_cases hpe : pyEq old_item v
      · rw [if_pos hpe] at h
        exact absurd h (by simp)
      · rw [if_neg hpe] at h
        injection h with h
        subst h
        refine ⟨rfl, rfl, ?_⟩
        intro hc
        simp at hc

theorem delRec_isSome {nm : List (String × Json)} {ts : Nat} {k : String}
    {v : Json} : (delRec nm ts (k, v)).isSome = true ↔ jLookup k nm = none := by
  show (match jLookup k nm with
      | none => some (⟨"delete", k, v, .null, ts⟩ : DiffRec)
      | some _ => none).isSome = true ↔ _
  cases hjl : jLookup k nm with
  | none => simp
  | some w => simp

theorem delRec_some {nm : List (String × Json)} {ts : Nat} {k : String}
    {v : Json} {r : DiffRec} (h : delRec nm ts (k, v) = some r) :
    r.item_id = k ∧ r.diff_type = "delete" := by
  unfold delRec at h
  replace h : (match jLookup k nm with
      | none => some (⟨"delete", k, v, .null, ts⟩ : DiffRec)
      | some _ => none) = some r := h
  cases hjl : jLookup k nm with
  | none =>
      rw [hjl] at h
      injection h with h
      subst h
      exact ⟨rfl, rfl⟩
  | some w =>
      rw [hjl] at h
      exact absurd h (by simp)

theorem filterMap_addUpd_keys {om : List (String × Json)} {ts : Nat}
    {pm : List (String × Json)} {r : DiffRec}
    (h : r ∈ pm.filterMap (addUpdRec om ts)) : r.item_id ∈ pm.map Prod.fst := by
  obtain ⟨kv, hkv, hrec⟩ := List.mem_filterMap.mp h
  obtain ⟨k, v⟩ := kv
  have := (addUpdRec_some hrec).1
  rw [this]
  exact List.mem_map.mpr ⟨(k, v), hkv, rfl⟩

theorem filterMap_del_keys {nm : List (String × Json)} {ts : Nat}
    {om : List (String × Json)} {r : DiffRec}
    (h : r ∈ om.filterMap (delRec nm ts)) : r.item_id ∈ om.map Prod.fst := by
  obtain ⟨kv, hkv, hrec⟩ := List.mem_filterMap.mp h
  obtain ⟨k, v⟩ := kv
  have := (delRec_some hrec).1
  rw [this]
  exact List.mem_map.mpr ⟨(k, v), hkv, rfl⟩

theorem apply_addUpd_lookup {om : List (String × Json)} {ts : Nat} {k : String} :
    ∀ (pm m : List (String × Json)), keysNodup pm = true →
      jLookup k (applyDiffs m (pm.filterMap (addUpdRec om ts))) =
        match jLookup k pm with
        | some nv => if (addUpdRec om ts (k, nv)).isSome then some nv else jLookup k m
        | none => jLookup k m := by
  intro pm
  induction pm with
  | nil => intro m _; rfl
  | cons p rest ih =>
      intro m hnd
      obtain ⟨k0, v0⟩ := p
      unfold keysNodup at hnd
      simp only [Bool.and_eq_true, Bool.not_eq_true', List.any_eq_false] at hnd
      obtain ⟨hk0nin, hnd'⟩ := hnd
      rw [List.filterMap_cons]
      cases hrec : addUpdRec om ts (k0, v0) with
      | none =>
          rw [jLookup_cons]
          by_cases hk : k0 = k
          · subst hk
            rw [if_pos rfl]
            have hnone : jLookup k0 rest = none := by
              apply jLookup_eq_none
              intro hc
              obtain ⟨q, hq, hqe⟩ := List.mem_map.mp hc
              have := hk0nin q hq
              simp [hqe] at this
            rw [ih m hnd', hnone]
            simp [hrec]
          · rw [if_neg hk, ih m hnd']
      | some r =>
          have hfields := addUpdRec_some hrec
          show jLookup k (applyDiffs (applyDiffs m [r]) (rest.filterMap (addUpdRec om ts))) = _
          rw [applyDiffs_step, if_neg hfields.2.2, hfields.1, hfields.2.1]
          rw [ih (dictInsert k0 v0 m) hnd']
          rw [jLookup_cons]
          by_cases hk : k0 = k
          · subst hk
            have hnone : jLookup k0 rest = none := by
              apply jLookup_eq_none
              intro hc
              obtain ⟨q, hq, hqe⟩ := List.mem_map.mp hc
              have := hk0nin q hq
              simp [hqe] at this
            rw [if_pos rfl, hnone]
            simp [hrec, jLookup_dictInsert_self]
          · rw [if_neg hk]
            have hins : jLookup k (dictInsert k0 v0 m) = jLookup k m :=
              jLookup_dictInsert_ne (fun h => hk h.symm) v0 m
            cases hr : jLookup k rest with
            | none => exact hins
            | some nv =>
                by_cases hs : (addUpdRec om ts (k, nv)).isSome
                · simp [hs]
                · simp [hs, hins]

theorem apply_del_lookup {nm : List (String × Json)} {ts : Nat} {k : String} :
    ∀ (om m : List (String × Json)), keysNodup om = true →
      jLookup k (applyDiffs m (om.filterMap (delRec nm ts))) =
        match jLookup k om with
        | some ov => if (delRec nm ts (k, ov)).isSome then none else jLookup k m
        | none => jLookup k m := by
  intro om
  induction om with
  | nil => intro m _; rfl
  | cons p rest ih =>
      intro m hnd
      obtain ⟨k0, v0⟩ := p
      unfold keysNodup at hnd
      simp only [Bool.and_eq_true, Bool.not_eq_true', List.any_eq_false] at hnd
      obtain ⟨hk0nin, hnd'⟩ := hnd
      rw [List.filterMap_cons]
      cases hrec : delRec nm ts (k0, v0) with
      | none =>
          rw [jLookup_cons]
          by_cases hk : k0 = k
          · subst hk
            have hnone : jLookup k0 rest = none := by
              apply jLookup_eq_none
              intro hc
              obtain ⟨q, hq, hqe⟩ := List.mem_map.mp hc
              have := hk0nin q hq
              simp [hqe] at this
            rw [if_pos rfl, ih m hnd', hnone]
            simp [hrec]
          · rw [if_neg hk, ih m hnd']
      | some r =>
          have hfields := delRec_some hrec
          show jLookup k (applyDiffs (applyDiffs m [r]) (rest.filterMap (delRec nm ts))) = _
          rw [applyDiffs_step, if_pos hfields.2, hfields.1]
          rw [ih _ hnd']
          rw [jLookup_cons]
          by_cases hk : k0 = k
          · subst hk
            have hnone : jLookup k0 rest = none := by
              apply jLookup_eq_none
              intro hc
              obtain ⟨q, hq, hqe⟩ := List.mem_map.mp hc
              have := hk0nin q hq
              simp [hqe] at this
            rw [if_pos rfl, hnone]
            simp [hrec, jLookup_erase_self]
          · rw [if_neg hk]
            have hins : jLookup k (List.filter (fun kv => !(kv.1 == k0)) m) = jLookup k m :=
              jLookup_erase_ne (fun h => hk h.symm) m
            cases hr : jLookup k rest with
            | none => exact hins
            | some ov =>
                by_cases hs : (delRec nm ts (k, ov)).isSome
                · simp [hs]
                · simp [hs, hins]

theorem mem_dictInsert {k : String} {v : Json} {q : String × Json} :
    ∀ {m : List (String × Json)}, q ∈ dictInsert k v m → q = (k, v) ∨ q ∈ m := by
  intro m
  induction m with
  | nil =>
      intro h
      simp [dictInsert] at h
      left
      obtain ⟨q1, q2⟩ := q
      simp at h
      simp [h]
  | cons w ws ihw =>
      intro h
      obtain ⟨w1, w2⟩ := w
      unfold dictInsert at h
      by_cases hw : w1 = k
      · rw [if_pos hw] at h
        rcases List.mem_cons.mp h with h2 | h2
        · left; exact h2
        · right; exact List.mem_cons.mpr (Or.inr h2)
      · rw [if_neg hw] at h
        rcases List.mem_cons.mp h with h2 | h2
        · right; exact List.mem_cons.mpr (Or.inl h2)
        · rcases ihw h2 with h3 | h3
          · left; exact h3
          · right; exact List.mem_cons.mpr (Or.inr h3)

theorem keysNodup_dictInsert {k : String} {v : Json} :
    ∀ {m : List (String × Json)}, keysNodup m = true →
      keysNodup (dictInsert k v m) = true := by
  intro m
  induction m with
  | nil => intro _; simp [dictInsert, keysNodup]
  | cons p rest ih =>
      intro hnd
      obtain ⟨p1, p2⟩ := p
      unfold keysNodup at hnd
      simp only [Bool.and_eq_true, Bool.not_eq_true', List.any_eq_false] at hnd
      obtain ⟨hnin, hnd'⟩ := hnd
      unfold dictInsert
      by_cases he : p1 = k
      · rw [if_pos he]
        unfold keysNodup
        simp only [Bool.and_eq_true, Bool.not_eq_true', List.any_eq_false]
        refine ⟨?_, hnd'⟩
        intro q hq
        have := hnin q hq
        simpa [he] using this
      · rw [if_neg he]
        unfold keysNodup
        simp only [Bool.and_eq_true, Bool.not_eq_true', List.any_eq_false]
        refine ⟨?_, ih hnd'⟩
        intro q hq
        rcases mem_dictInsert hq with h | h
        · subst h
          simpa using fun hc => he hc.symm
        · exact hnin q h

theorem keysNodup_erase {k : String} :
    ∀ {m : List (String × Json)}, keysNodup m = true →
      keysNodup (m.filter fun kv => !(kv.1 == k)) = true := by
  intro m
  induction m with
  | nil => intro h; exact h
  | cons p rest ih =>
      intro hnd
      obtain ⟨p1, p2⟩ := p
      unfold keysNodup at hnd
      simp only [Bool.and_eq_true, Bool.not_eq_true', List.any_eq_false] at hnd
      obtain ⟨hnin, hnd'⟩ := hnd
      by_cases he : p1 = k
      · rw [List.filter_cons_of_neg (by simp [he])]
        exact ih hnd'
      · rw [List.filter_cons_of_pos (by simp [he])]
        unfold keysNodup
        simp only [Bool.and_eq_true, Bool.not_eq_true', List.any_eq_false]
        refine ⟨?_, ih hnd'⟩
        intro q hq
        exact hnin q (List.mem_of_mem_filter hq)

theorem applyDiffs_keysNodup :
    ∀ (ds : List DiffRec) (m : List (String × Json)), keysNodup m = true →
      keysNodup (applyDiffs m ds) = true := by
  intro ds
  induction ds with
  | nil => intro m h; exact h
  | cons d ds ih =>
      intro m hnd
      show keysNodup (applyDiffs (applyDiffs m [d]) ds) = true
      apply ih
      rw [applyDiffs_step]
      by_cases hdel : d.diff_type = "delete"
      · rw [if_pos hdel]
        exact keysNodup_erase hnd
      · rw [if_neg hdel]
        exact keysNodup_dictInsert hnd

theorem dedupFirstAux_nodup :
    ∀ (l seen : List String),
      (dedupFirstAux seen l).Nodup ∧ ∀ x ∈ dedupFirstAux seen l, x ∉ seen := by
  intro l
  induction l with
  | nil => intro seen; simp [dedupFirstAux]
  | cons x xs ih =>
      intro seen
      unfold dedupFirstAux
      by_cases hm : x ∈ seen
      · rw [if_pos (by simpa using hm)]
        exact ih seen
      · rw [if_neg (by simpa using hm)]
        obtain ⟨hnd, hnin⟩ := ih (x :: seen)
        refine ⟨List.nodup_cons.mpr ⟨?_, hnd⟩, ?_⟩
        · intro hc
          exact hnin x hc (List.mem_cons_self _ _)
        · intro y hy
          rcases List.mem_cons.mp hy with h | h
          · subst h; exact hm
          · intro hc
            exact hnin y h (List.mem_cons.mpr (Or.inr hc))

theorem buildMap_keysNodup (items : List Json) :
    keysNodup (buildMap items) = true := by
  rw [keysNodup_iff, buildMap_keys]
  exact (dedupFirstAux_nodup _ []).1

theorem mem_buildMap {k : String} {v : Json} :
    ∀ {items : List Json}, (k, v) ∈ buildMap items →
      v ∈ items ∧ extract_id v = some k := by
  have hgen : ∀ (items : List Json) (m : List (String × Json)),
      (k, v) ∈ items.foldl (fun m item =>
        match extract_id item with
        | some k => dictInsert k item m
        | none => m) m →
      (k, v) ∈ m ∨ (v ∈ items ∧ extract_id v = some k) := by
    intro items
    induction items with
    | nil => intro m h; exact Or.inl h
    | cons x rest ih =>
        intro m h
        rw [List.foldl_cons] at h
        cases hx : extract_id x with
        | none =>
            rw [hx] at h
            rcases ih m h with h' | h'
            · exact Or.inl h'
            · exact Or.inr ⟨List.mem_cons.mpr (Or.inr h'.1), h'.2⟩
        | some kx =>
            rw [hx] at h
            rcases ih (dictInsert kx x m) h with h' | h'
            · rcases mem_dictInsert h' with h'' | h''
              · injection h'' with h1 h2
                subst h1 h2
                exact Or.inr ⟨List.mem_cons_self _ _, hx⟩
              · exact Or.inl h''
            · exact Or.inr ⟨List.mem_cons.mpr (Or.inr h'.1), h'.2⟩
  intro items h
  rcases hgen items [] h with h' | h'
  · simp at h'
  · exact h'

theorem addUpdRec_none {om : List (String × Json)} {ts : Nat} {k : String}
    {v : Json} (h : addUpdRec om ts (k, v) = none) :
    ∃ ov, jLookup k om = some ov ∧ pyEq ov v = true := by
  unfold addUpdRec at h
  replace h : (match jLookup k om with
      | none => some (⟨"add", k, .null, v, ts⟩ : DiffRec)
      | some old_item =>
          if pyEq old_item v then none
          else some ⟨"update", k, old_item, v, ts⟩) = none := h
  cases hjl : jLookup k om with
  | none =>
      rw [hjl] at h
      exact absurd h (by simp)
  | some ov =>
      rw [hjl] at h
      replace h : (if pyEq ov v then none
          else some (⟨"update", k, ov, v, ts⟩ : DiffRec)) = none := h
      by_cases hpe : pyEq ov v
      · exact ⟨ov, rfl, hpe⟩
      · rw [if_neg hpe] at h
        exact absurd h (by simp)

theorem scanl_getLastD (f : β → α → β) : ∀ (l : List α) (b x : β),
    (List.scanl f b l).getLastD x = l.foldl f b := by
  intro l
  induction l with
  | nil => intro b x; simp [List.scanl]
  | cons a l ih =>
      intro b x
      rw [List.scanl_cons]
      simp only [List.singleton_append, List.getLastD_cons]
      rw [ih]
      rfl

theorem batchesGo_flatten {α : Type} (B : Nat) (hB : 0 < B) :
    ∀ (fuel : Nat) (l : List α), l.length ≤ fuel →
      (batchesGo B fuel l).flatten = l := by
  intro fuel
  induction fuel with
  | zero =>
      intro l hl
      have := List.eq_nil_of_length_eq_zero (Nat.le_zero.mp hl)
      simp [this, batchesGo]
  | succ n ih =>
      intro l hl
      match l with
      | [] => simp [batchesGo]
      | a :: t =>
          show (List.take B (a :: t) :: batchesGo B n (List.drop B (a :: t))).flatten
            = a :: t
          rw [List.flatten_cons, ih]
          · exact List.take_append_drop B (a :: t)
          · simp only [List.length_drop]
            simp at hl ⊢
            omega

theorem commit_fold_rows (d v : String) :
    ∀ (bs : List (List Json)) (s : DBState),
      bs.foldl (fun s batch =>
        { s with continent_rows :=
            s.continent_rows ++ batch.map fun j => ⟨d, v, j⟩ }) s =
      { s with continent_rows :=
          s.continent_rows ++ bs.flatten.map fun j => ⟨d, v, j⟩ } := by
  intro bs
  induction bs with
  | nil => intro s; simp
  | cons b bs ih =>
      intro s
      rw [List.foldl_cons, ih]
      simp [List.append_assoc]

theorem insertKeyed_perm (lt : Json → Json → Bool) (p : Json × Json) :
    ∀ l : List (Json × Json), (insertKeyed lt p l).Perm (p :: l) := by
  intro l
  induction l with
  | nil => simp [insertKeyed]
  | cons q rest ih =>
      unfold insertKeyed
      by_cases h : lt q.1 p.1
      · simp only [h, if_true]
        exact (ih.cons q).trans (List.Perm.swap p q rest)
      · simp [h]

theorem sortStable_perm (lt : Json → Json → Bool) :
    ∀ l : List (Json × Json), (sortStable lt l).Perm l := by
  intro l
  induction l with
  | nil => simp [sortStable]
  | cons p rest ih =>
      unfold sortStable
      exact (insertKeyed_perm lt p _).trans (ih.cons p)

theorem mem_sortStable_keyed (lt : Json → Json → Bool) (key : Json → Json)
    (out : List Json) (r : Json) :
    r ∈ (sortStable lt (out.map fun x => (key x, x))).map Prod.snd ↔ r ∈ out := by
  constructor
  · intro hm
    obtain ⟨p, hp, hps⟩ := List.mem_map.mp hm
    have := (sortStable_perm _ _).mem_iff.mp hp
    obtain ⟨q, hq, hqs⟩ := List.mem_map.mp this
    rw [← hps, ← hqs]
    simpa using hq
  · intro hm
    apply List.mem_map.mpr
    refine ⟨(key r, r), ?_, rfl⟩
    apply (sortStable_perm _ _).mem_iff.mpr
    exact List.mem_map.mpr ⟨r, hm, rfl⟩

/-- A sorted projection keeps exactly the input's members (Python's sort
permutes in place). -/
theorem pySortByKey_mem {out l : List Json} {b : Json} {desc : Bool}
    (h : pySortByKey out b desc = .ok l) : ∀ r, r ∈ l ↔ r ∈ out := by
  intro r
  unfold pySortByKey at h
  match b with
  | .arr _ | .obj _ => simp at h
  | .null | .bool _ | .num _ | .str _ =>
      simp only at h
      split at h
      · injection h with h
        subst h
        exact mem_sortStable_keyed _ _ out r
      · exact absurd h (by simp)

theorem pyEq_null_right : ∀ w, pyEq w .null = true ↔ w = .null := by
  intro w
  cases w <;> simp [pyEq, pyEqFuel, jsonDepth]

/-- The net effect of the commit activity: the version upsert plus an
atomic-looking replace of the row sequence (the final state only — the
intermediate states of `commitTrace` are what C1 is about). -/
theorem commit_continent_data_eq (st : DBState) (d v ck : String)
    (rows : List Json) (p dc : Option String) (now : Nat) :
    commit_continent_data st d v ck rows p dc now =
      { upsertVersion st ⟨d, v, ck, now, p, dc, "ready"⟩ with
        continent_rows :=
          ((upsertVersion st ⟨d, v, ck, now, p, dc, "ready"⟩).continent_rows.filter
            fun r => !(r.dataset_id == d && r.version == v)) ++
            rows.map fun j => ⟨d, v, j⟩ } := by
  unfold commit_continent_data commitTrace batchesOf
  rw [List.getLastD_cons, scanl_getLastD, commit_fold_rows,
    batchesGo_flatten 1000 (by omega) rows.length rows (le_refl _)]

/-- A successful `validate_continent` only touches the `seen:` keys: the
three continent tables come through unchanged. -/
theorem validate_tables (st st' : DBState) (d v ck : String) (n : Nat)
    (h : validate_continent st d v ck n = .ok st') :
    st'.continent_versions = st.continent_versions ∧
    st'.continent_rows = st.continent_rows ∧
    st'.continent_diffs = st.continent_diffs := by
  unfold validate_continent at h
  split at h
  · exact absurd h (by simp)
  split at h
  · exact absurd h (by simp)
  split at h
  · injection h with h
    subst h
    exact ⟨rfl, rfl, rfl⟩
  · split at h
    · exact absurd h (by simp)
    · injection h with h
      subst h
      exact ⟨rfl, rfl, rfl⟩

/-- `latestVersion` reads only `continent_versions`. -/
theorem latestVersion_congr (s t : DBState) (d : String)
    (h : s.continent_versions = t.continent_versions) :
    latestVersion s d = latestVersion t d := by
  unfold latestVersion
  rw [h]

/-- `rowsFor` reads only `continent_rows`. -/
theorem rowsFor_congr (s t : DBState) (d v : String)
    (h : s.continent_rows = t.continent_rows) :
    rowsFor s d v = rowsFor t d v := by
  unfold rowsFor
  rw [h]

/-- `versionOf` reads only `continent_versions`. -/
theorem versionOf_congr (s t : DBState) (d v : String)
    (h : s.continent_versions = t.continent_versions) :
    versionOf s d v = versionOf t d v := by
  unfold versionOf
  rw [h]

/-- `ingestDeltas` reads only the version and row tables. -/
theorem ingestDeltas_congr (s t : DBState) (d : String) (rows : List Json)
    (now : Nat)
    (hV : s.continent_versions = t.continent_versions)
    (hR : s.continent_rows = t.continent_rows) :
    ingestDeltas s d rows now = ingestDeltas t d rows now := by
  unfold ingestDeltas
  rw [latestVersion_congr s t d hV]
  cases latestVersion t d with
  | none => rfl
  | some p =>
      show compute_diff (rowsFor s d p) rows now = compute_diff (rowsFor t d p) rows now
      rw [rowsFor_congr s t d p hR]

/-- `ingestDeltaRows` reads only the version and row tables. -/
theorem ingestDeltaRows_congr (s t : DBState) (d v : String) (rows : List Json)
    (now : Nat)
    (hV : s.continent_versions = t.continent_versions)
    (hR : s.continent_rows = t.continent_rows) :
    ingestDeltaRows s d v rows now = ingestDeltaRows t d v rows now := by
  unfold ingestDeltaRows
  rw [latestVersion_congr s t d hV, ingestDeltas_congr s t d rows now hV hR]

/-- The diff activity in closed form: it returns the latest version as
parent, the checksum and count of this run's delta list, and appends that
list's rows to `continent_diffs`. -/
theorem compute_continent_diff_eq (st : DBState) (d v : String)
    (rows : List Json) (now : Nat) :
    compute_continent_diff st d v rows now =
      ({ st with continent_diffs :=
           st.continent_diffs ++ ingestDeltaRows st d v rows now },
       ⟨latestVersion st d, diffsChecksum (ingestDeltas st d rows now),
        (ingestDeltas st d rows now).length⟩) := by
  unfold compute_continent_diff ingestDeltaRows ingestDeltas
  cases latestVersion st d with
  | none => rfl
  | some p => rfl

/-- Overwriting every `p`-element of a list by `r` (with `p r` true) puts
`r` at the head of the `p`-filtered result as soon as some element
satisfied `p`. -/
theorem head_filter_overwrite (p : α → Bool) (r : α) (hp : p r = true) :
    ∀ l : List α, l.any p = true →
      (((l.map fun q => if p q then r else q).filter p).head?) = some r := by
  intro l hl
  induction l with
  | nil => simp at hl
  | cons q t ih =>
      simp only [List.map_cons, List.filter_cons]
      by_cases hq : p q = true
      · simp [hq, hp]
      · replace hq : p q = false := by
          cases hpq : p q
          · rfl
          · exact absurd hpq hq
        simp only [List.any_cons, hq, Bool.false_or] at hl
        simpa [hq] using ih hl

/-- After the version upsert, the record a reader finds for the upserted
key is exactly the upserted record. -/
theorem versionOf_upsert (st : DBState) (r : VersionRec) :
    versionOf (upsertVersion st r) r.dataset_id r.version = some r := by
  unfold versionOf upsertVersion
  by_cases hany : (st.continent_versions.any fun q =>
      q.dataset_id == r.dataset_id && q.version == r.version) = true
  · rw [if_pos hany]
    simp only
    refine head_filter_overwrite _ r (by simp) _ ?_
    refine (List.any_eq_true).mpr ?_
    obtain ⟨q, hq, hpq⟩ := List.any_eq_true.mp hany
    exact ⟨q, hq, by simpa using hpq⟩
  · rw [if_neg hany]
    simp only
    rw [List.filter_append]
    have hnil : (st.continent_versions.filter fun q =>
        q.dataset_id == r.dataset_id && q.version == r.version) = [] := by
      refine List.filter_eq_nil_iff.mpr ?_
      intro q hq
      intro hpq
      refine hany ?_
      exact List.any_eq_true.mpr ⟨q, hq, hpq⟩
    rw [hnil, List.nil_append]
    simp [List.filter_cons]

/-- Replacing the row sequence of `(d, v)` makes `rowsFor` return exactly
the replacement (the commit's delete-then-insert net effect). -/
theorem rowsFor_replace (l : List RowRec) (d v : String) (rows : List Json) :
    (((l.filter fun r => !(r.dataset_id == d && r.version == v)) ++
        rows.map fun j => (⟨d, v, j⟩ : RowRec)).filter
          (fun r => r.dataset_id == d && r.version == v)).map (·.item) = rows := by
  rw [List.filter_append]
  have h1 : ((l.filter fun r => !(r.dataset_id == d && r.version == v)).filter
      fun r => r.dataset_id == d && r.version == v) = [] := by
    refine List.filter_eq_nil_iff.mpr ?_
    intro q hq hpq
    have hmem := List.of_mem_filter hq
    rw [hpq] at hmem
    simp at hmem
  have h2 : ((rows.map fun j => (⟨d, v, j⟩ : RowRec)).filter
      fun r => r.dataset_id == d && r.version == v) =
        rows.map fun j => (⟨d, v, j⟩ : RowRec) := by
    refine List.filter_eq_self.mpr ?_
    intro q hq
    obtain ⟨j, hj, hjq⟩ := List.mem_map.mp hq
    simp [← hjq]
  rw [h1, h2, List.nil_append, List.map_map]
  exact List.map_id rows

/-! ## Claim theorems -/

/-- C1: the commit step is NOT atomic with respect to readers.  On a fresh
one-row ingest, the state reached after commit's first autocommitted
statement (the version upsert, which already writes `status = 'ready'`)
shows `(d, v1)` as ready while its stored row sequence is still empty —
a reader observes a ready version with a partial (empty) row sequence. -/
theorem commit_ready_visible_with_partial_rows :
    ∃ s ∈ commitTrace DBState.empty "d" "v1" "c1" [exRow] none (some "dc") 9,
      (readyVersion s "d" "v1").isSome = true ∧ rowsFor s "d" "v1" = [] := by
  decide

set_option maxRecDepth 400000 in
/-- C2: the diff step's parent query (`ORDER BY ts DESC LIMIT 1`, no
status filter, no exclusion of the version being ingested) violates the
parent invariant.  Reingesting `(d, v1)` with identical payload succeeds,
and afterwards the committed record's `parent_version` is `v1` itself —
not NULL and not a ready version with strictly smaller `ts` (its `ts` is
its own). -/
theorem reingest_parent_is_self :
    exIngest1.isOk = true ∧
    (exIngest2.map fun st =>
        (versionOf st "d" "v1").map fun r => (r.parent_version, r.version)) =
      .ok (some (some "v1", "v1")) := by
  decide

set_option maxRecDepth 400000 in
/-- C3: ingest is NOT idempotent.  Running the workflow twice with
identical `(dataset_id, version, checksum, rows)` leaves a different
version record: the first run stores `parent_version = NULL` and the
SHA-256 of the one-add delta list, the second rewrites them to
`parent_version = v1` (itself) and the SHA-256 of the empty delta list. -/
theorem reingest_changes_version_record :
    (exIngest1.map fun st =>
        (versionOf st "d" "v1").map fun r => (r.parent_version, r.diff_checksum)) ≠
    (exIngest2.map fun st =>
        (versionOf st "d" "v1").map fun r => (r.parent_version, r.diff_checksum)) := by
  decide

set_option maxRecDepth 400000 in
/-- C4: a same-checksum reingest is indeed never treated as an error, and
a different-checksum reingest fails hard at validate with the checksum
mismatch — but the same-checksum reingest is NOT a no-op: the resulting
durable state differs from the state the first ingest left. -/
theorem reingest_same_checksum_not_noop :
    exIngest2.isOk = true ∧ exIngest2 ≠ .ok exSt1 ∧
      ingestWorkflow exSt1 "d" "v1" "c2" [exRow] 3 4 =
        .error "Checksum mismatch for same dataset+version" := by
  decide

set_option maxRecDepth 400000 in
/-- C5 counterexample: checksums are computed over `orjson.dumps` WITHOUT
key sorting, so the stored checksum of a committed version differs from
the SHA-256 of the field-sorted (canonical) serialization of its stored
row sequence whenever a row's keys are unsorted: uploading
`[{"b": 0, "a": 0}]` stores a checksum that is not the canonical one. -/
theorem stored_checksum_not_canonical :
    exUploadBA.isOk = true ∧
    rowsFor exStBA "d" exVerBA = [exRowBA] ∧
    (versionOf exStBA "d" exVerBA).map (·.checksum) ≠
      some (canonicalChecksum (rowsFor exStBA "d" exVerBA)) := by
  decide

/-- C5 amended: for EVERY version an upload commits — from any prior
durable state, first ingest, parent-branch ingest and reingest alike —
the committed record is 'ready', its `checksum` equals the SHA-256 of
the `orjson` UTF-8 serialization of the stored row sequence with map
keys in their original (insertion) order — `orjson.dumps` is called
without `OPT_SORT_KEYS`, so maps are NOT field-sorted and two row
sequences equal up to map key ordering yield DIFFERENT checksums (the
counterexample) — and its `diff_checksum` equals the SHA-256 of the
`orjson` serialization of the delta record list that run's diff step
computed and appended to `continent_diffs`.  The diff step only
appends, so `diff_checksum` does not in general hash the version's
accumulated `continent_diffs` table contents. -/
theorem upload_checksum_binding (st st' : DBState) (d : String)
    (rows : List Json) (now nd nc : Nat)
    (hok : upload_continent st d rows now nd nc = .ok st') :
    ∃ r, versionOf st' d (mkVersion now (uploadChecksum rows)) = some r ∧
      r.status = "ready" ∧
      rowsFor st' d (mkVersion now (uploadChecksum rows)) = rows ∧
      r.checksum =
        sha256Hex (utf8Encode (orjsonDumps
          (.arr (rowsFor st' d (mkVersion now (uploadChecksum rows)))))) ∧
      r.diff_checksum = some (diffsChecksum (ingestDeltas st d rows nd)) ∧
      st'.continent_diffs =
        st.continent_diffs ++
          ingestDeltaRows st d (mkVersion now (uploadChecksum rows)) rows nd := by
  unfold upload_continent at hok
  split at hok
  · exact absurd hok (by simp)
  set ck := uploadChecksum rows with hckdef
  set v := mkVersion now ck with hv
  unfold ingestWorkflow at hok
  cases hval : validate_continent st d v ck rows.length with
  | error e =>
      rw [hval] at hok
      exact absurd hok (by simp [Bind.bind, Except.bind])
  | ok st2 =>
      obtain ⟨hV, hR, hD⟩ := validate_tables st st2 d v ck rows.length hval
      rw [hval] at hok
      replace hok :
          (match compute_continent_diff st2 d v rows nd with
           | (s, dr) =>
              Except.ok (commit_continent_data s d v ck rows
                dr.parent_version (some dr.diff_checksum) nc)) =
            Except.ok st' := hok
      rw [compute_continent_diff_eq] at hok
      rw [ingestDeltas_congr st2 st d rows nd hV hR,
          ingestDeltaRows_congr st2 st d v rows nd hV hR,
          latestVersion_congr st2 st d hV] at hok
      replace hok :
          Except.ok (commit_continent_data
            { st2 with continent_diffs :=
                st2.continent_diffs ++ ingestDeltaRows st d v rows nd }
            d v ck rows (latestVersion st d)
            (some (diffsChecksum (ingestDeltas st d rows nd))) nc) =
            Except.ok st' := hok
      injection hok with hok
      subst hok
      set st3 : DBState :=
        { st2 with continent_diffs :=
            st2.continent_diffs ++ ingestDeltaRows st d v rows nd } with hst3
      set rec : VersionRec :=
        ⟨d, v, ck, nc, latestVersion st d,
          some (diffsChecksum (ingestDeltas st d rows nd)), "ready"⟩ with hrec
      rw [commit_continent_data_eq]
      have hrows :
          rowsFor { upsertVersion st3 rec with
              continent_rows :=
                ((upsertVersion st3 rec).continent_rows.filter
                  fun r => !(r.dataset_id == d && r.version == v)) ++
                  rows.map fun j => ⟨d, v, j⟩ } d v = rows := by
        unfold rowsFor
        exact rowsFor_replace (upsertVersion st3 rec).continent_rows d v rows
      refine ⟨rec, ?_, rfl, hrows, ?_, rfl, ?_⟩
      · have hvv : versionOf { upsertVersion st3 rec with
            continent_rows :=
              ((upsertVersion st3 rec).continent_rows.filter
                fun r => !(r.dataset_id == d && r.version == v)) ++
                rows.map fun j => ⟨d, v, j⟩ } d v =
            versionOf (upsertVersion st3 rec) d v :=
          versionOf_congr _ _ d v rfl
        rw [hvv]
        exact versionOf_upsert st3 rec
      · rw [hrows]
        rfl
      · show (upsertVersion st3 rec).continent_diffs = _
        have : (upsertVersion st3 rec).continent_diffs = st3.continent_diffs := by
          unfold upsertVersion
          split <;> rfl
        rw [this, hst3]
        show st2.continent_diffs ++ _ = _
        rw [hD]

set_option maxRecDepth 1000000 in
/-- C5 amended, witness: the reingest `exUploadBA2` — the identical
payload `[\x7b"b": 0, "a": 0\x7d]` re-uploaded over `exStBA`, driven
through the parent branch of the diff step. -/
theorem upload_checksum_binding_witness :
    (upload_continent exStBA "d" [exRowBA] 1 5 6 = .ok exStBA2) ∧
    ∃ r, versionOf exStBA2 "d" (mkVersion 1 (uploadChecksum [exRowBA])) = some r ∧
      r.status = "ready" ∧
      rowsFor exStBA2 "d" (mkVersion 1 (uploadChecksum [exRowBA])) = [exRowBA] ∧
      r.checksum =
        sha256Hex (utf8Encode (orjsonDumps
          (.arr (rowsFor exStBA2 "d" (mkVersion 1 (uploadChecksum [exRowBA])))))) ∧
      r.diff_checksum = some (diffsChecksum (ingestDeltas exStBA "d" [exRowBA] 5)) ∧
      exStBA2.continent_diffs =
        exStBA.continent_diffs ++
          ingestDeltaRows exStBA "d" (mkVersion 1 (uploadChecksum [exRowBA]))
            [exRowBA] 5 :=
  ⟨by decide,
   upload_checksum_binding exStBA exStBA2 "d" [exRowBA] 1 5 6 (by decide)⟩

/-- C8: a row is in the projection filter's output iff for every
`(field, value)` entry of the context's filters map the row's value at
`field` passes `filterTest` — equality (Python `==`) for a scalar filter
value, membership for a list filter value; a row missing the field
carries the absent value `null`, which passes only against a `null`
scalar or a list containing `null` (second conjunct); with an empty or
absent filters map every row passes (the `fs = []` case of the first
conjunct makes the condition vacuous). -/
theorem apply_filters_filter_semantics (rows out : List Json) (ctx : Json)
    (fs : List (String × Json))
    (hf : pyGet ctx "filters" = .obj fs)
    (hok : apply_filters rows ctx = .ok out) :
    (∀ r, r ∈ out ↔ r ∈ rows ∧ ∀ kv ∈ fs, filterTest (pyGet r kv.1) kv.2 = true) ∧
    (∀ v, filterTest .null v = true ↔
      (v = .null ∨ ∃ vs, v = .arr vs ∧ .null ∈ vs)) := by
  constructor
  · have key : ∀ r, r ∈ out ↔ r ∈ rows.filter (rowMatch fs) ∨
        (fs = [] ∧ r ∈ rows) := by
      intro r
      unfold apply_filters at hok
      rw [hf] at hok
      by_cases hfe : fs.isEmpty
      · have hnil : fs = [] := by
          cases fs
          · rfl
          · simp [List.isEmpty] at hfe
        subst hnil
        simp [pyTruthy] at hok
        subst hok
        simp [rowMatch]
      · have htr : pyTruthy (.obj fs) = true := by
          simp [pyTruthy, hfe]
        simp only [htr, Bool.not_true, Bool.false_eq_true, if_false] at hok
        have hne : fs ≠ [] := by
          intro h
          subst h
          simp [List.isEmpty] at hfe
        constructor
        · intro hr
          left
          revert hok
          split
          · split
            · split
              · intro hok
                exact (pySortByKey_mem hok r).mp hr
              · intro hok
                injection hok with h
                exact h ▸ hr
            · intro hok
              injection hok with h
              exact h ▸ hr
          · intro hok
            injection hok with h
            exact h ▸ hr
        · intro hr
          rcases hr with hr | ⟨hfs, _⟩
          · revert hok
            split
            · split
              · split
                · intro hok
                  exact (pySortByKey_mem hok r).mpr hr
                · intro hok
                  injection hok with h
                  exact h ▸ hr
              · intro hok
                injection hok with h
                exact h ▸ hr
            · intro hok
              injection hok with h
              exact h ▸ hr
          · exact absurd hfs hne
    intro r
    rw [key r]
    constructor
    · intro h
      rcases h with h | ⟨hfs, hr⟩
      · have := List.mem_filter.mp h
        refine ⟨this.1, ?_⟩
        intro kv hkv
        exact List.all_eq_true.mp this.2 kv hkv
      · subst hfs
        exact ⟨hr, by simp⟩
    · intro ⟨hr, hall⟩
      left
      apply List.mem_filter.mpr
      refine ⟨hr, List.all_eq_true.mpr ?_⟩
      intro kv hkv
      exact hall kv hkv
  · intro v
    cases v with
    | arr vs =>
        simp only [filterTest]
        rw [List.any_eq_true]
        constructor
        · intro ⟨w, hw, hwe⟩
          exact Or.inr ⟨vs, rfl, (pyEq_null_right w).mp hwe ▸ hw⟩
        · intro h
          rcases h with h | ⟨vs', hv, hm⟩
          · simp at h
          · injection hv with hv
            subst hv
            exact ⟨.null, hm, by simp [pyEq, pyEqFuel, jsonDepth]⟩
    | null => simp [filterTest, pyEq, pyEqFuel, jsonDepth]
    | bool b => simp [filterTest, pyEq, pyEqFuel, jsonDepth]
    | num n => simp [filterTest, pyEq, pyEqFuel, jsonDepth]
    | str s => simp [filterTest, pyEq, pyEqFuel, jsonDepth]
    | obj fsv => simp [filterTest, pyEq, pyEqFuel, jsonDepth]

/-- C8 witness: spec scenario 6 — rows filtered by
`{status: ["new"], country: "IN"}` and sorted by amount descending
project to `[exOrder3, exOrder1]`, and the membership characterization
holds there. -/
theorem apply_filters_filter_semantics_witness :
    (∀ r, r ∈ [exOrder3, exOrder1] ↔
      r ∈ [exOrder1, exOrder2, exOrder3] ∧
        ∀ kv ∈ [("status", Json.arr [.str "new"]), ("country", Json.str "IN")],
          filterTest (pyGet r kv.1) kv.2 = true) ∧
    (∀ v, filterTest .null v = true ↔
      (v = .null ∨ ∃ vs, v = .arr vs ∧ .null ∈ vs)) :=
  apply_filters_filter_semantics [exOrder1, exOrder2, exOrder3]
    [exOrder3, exOrder1] exCtxFilterSort
    [("status", Json.arr [.str "new"]), ("country", Json.str "IN")]
    (by decide) (by decide)

/-- C9: with an empty (or absent) `filters` map, `_apply_filters` returns
on line 328 BEFORE the sort stage, so a context whose `sort.by` is
present sorts nothing: the rows come back in input order even though the
second row's `amount` key is strictly smaller than the first row's. -/
theorem sort_skipped_when_filters_empty :
    apply_filters [exRowAmount2, exRowAmount1] exCtxSortOnly =
      .ok [exRowAmount2, exRowAmount1] ∧
    pyLtB (pyGet exRowAmount1 "amount") (pyGet exRowAmount2 "amount") = true := by
  decide

/-- C10: the incremental read requires TWO distinct matching ready rows:
under the `(dataset_id, version)` primary key (no two version rows share
the pair), `get_incremental(d, V, V)` always takes the 404 branch — the
`IN (%s, %s)` check finds at most one row — and more generally any
request matching fewer than two rows is a 404, never the delta list. -/
theorem get_incremental_self_is_notfound (st : DBState) (d v : String)
    (hpk : (st.continent_versions.map fun r => (r.dataset_id, r.version)).Nodup) :
    (∃ e, get_incremental_update st d v v = .error e) ∧
    (∀ fromV toV,
      (st.continent_versions.filter fun r =>
        r.dataset_id == d && (r.version == fromV || r.version == toV) &&
          r.status == "ready").length < 2 →
      ∃ e, get_incremental_update st d fromV toV = .error e) := by
  constructor
  · set l := st.continent_versions.filter fun r =>
      r.dataset_id == d && (r.version == v || r.version == v) &&
        r.status == "ready" with hl
    have hsub : (l.map fun r => (r.dataset_id, r.version)).Sublist
        (st.continent_versions.map fun r => (r.dataset_id, r.version)) :=
      (List.filter_sublist _).map _
    have hnd : (l.map fun r => (r.dataset_id, r.version)).Nodup := hpk.sublist hsub
    have hall : ∀ r ∈ l, r.dataset_id = d ∧ r.version = v := by
      intro r hr
      have := List.mem_filter.mp hr
      have hp := this.2
      simp only [Bool.and_eq_true, Bool.or_eq_true, beq_iff_eq] at hp
      obtain ⟨⟨hd, hv⟩, _⟩ := hp
      cases hv with
      | inl h => exact ⟨hd, h⟩
      | inr h => exact ⟨hd, h⟩
    have hlen : l.length ≤ 1 := by
      match hm : l with
      | [] => simp
      | [a] => simp
      | a :: b :: rest =>
          exfalso
          have ha := hall a (by rw [hm]; exact List.mem_cons_self a _)
          have hb := hall b (by
            rw [hm]
            exact List.mem_cons.mpr (Or.inr (List.mem_cons_self b _)))
          rw [hm] at hnd
          simp at hnd
          exact hnd.1.1 (ha.1.trans hb.1.symm) (ha.2.trans hb.2.symm)
    refine ⟨"One or both versions not found", ?_⟩
    unfold get_incremental_update
    rw [← hl]
    have h2 : (l.map (·.version)).length ≠ 2 := by
      rw [List.length_map]
      omega
    simp only [if_neg h2]
  · intro fromV toV hlt
    refine ⟨"One or both versions not found", ?_⟩
    unfold get_incremental_update
    have h2 : ((st.continent_versions.filter fun r =>
        r.dataset_id == d && (r.version == fromV || r.version == toV) &&
          r.status == "ready").map (·.version)).length ≠ 2 := by
      rw [List.length_map]
      omega
    simp only [if_neg h2]

/-- C10 witness: a store holding the single ready version `v1` of dataset
`d` answers `get_incremental(d, v1, v1)` with the not-found error. -/
theorem get_incremental_self_is_notfound_witness :
    ∃ e, get_incremental_update
      ⟨[⟨"d", "v1", "c", 1, none, none, "ready"⟩], [], [], []⟩ "d" "v1" "v1" =
        .error e :=
  (get_incremental_self_is_notfound
    ⟨[⟨"d", "v1", "c", 1, none, none, "ready"⟩], [], [], []⟩ "d" "v1"
    (by decide)).1

/-- C6: delta replay.  For any two row lists in which every row carries an
id and the string-coerced ids are pairwise distinct per list (and the new
rows are well-formed Python dicts), applying the delta records of
`_compute_diff(old, new)` to the keyed form of `old` — insert `new_item`
on add, replace on update, remove on delete — produces exactly the row
set of `new` as a set: every produced row is Python-`==` to a row of
`new`, and every row of `new` is Python-`==` to a produced row (order is
not claimed).  Python `==` rather than syntactic equality is the right
set equality here: an omitted update leaves the parent's copy, which may
order its keys differently. -/
theorem delta_replay (old_items new_items : List Json) (ts : Nat)
    (_hidsO : ∀ x ∈ old_items, (extract_id x).isSome = true)
    (hidsN : ∀ y ∈ new_items, (extract_id y).isSome = true)
    (_hndO : (old_items.filterMap extract_id).Nodup)
    (hndN : (new_items.filterMap extract_id).Nodup)
    (hwfN : ∀ y ∈ new_items, wfJson y = true) :
    (∀ x ∈ (applyDiffs (buildMap old_items)
        (compute_diff old_items new_items ts)).map Prod.snd,
      ∃ y ∈ new_items, pyEq x y = true) ∧
    (∀ y ∈ new_items,
      ∃ x ∈ (applyDiffs (buildMap old_items)
          (compute_diff old_items new_items ts)).map Prod.snd,
        pyEq x y = true) := by
  set om := buildMap old_items with hom
  set nm := buildMap new_items with hnm
  set R := applyDiffs om (compute_diff old_items new_items ts) with hR
  have hndom : keysNodup om = true := buildMap_keysNodup _
  have hndnm : keysNodup nm = true := buildMap_keysNodup _
  have hndR : keysNodup R = true := applyDiffs_keysNodup _ om hndom
  have hkey : ∀ k, (jLookup k R = none ∧ jLookup k nm = none) ∨
      (∃ x nv, jLookup k R = some x ∧ jLookup k nm = some nv ∧ pyEq x nv = true) := by
    intro k
    have hRk : jLookup k R =
        match jLookup k om with
        | some ov => if (delRec nm ts (k, ov)).isSome then none
            else jLookup k (applyDiffs om (nm.filterMap (addUpdRec om ts)))
        | none => jLookup k (applyDiffs om (nm.filterMap (addUpdRec om ts))) := by
      rw [hR, compute_diff_decomp, applyDiffs_append]
      exact apply_del_lookup om _ hndom
    have hAk : jLookup k (applyDiffs om (nm.filterMap (addUpdRec om ts))) =
        match jLookup k nm with
        | some nv => if (addUpdRec om ts (k, nv)).isSome then some nv else jLookup k om
        | none => jLookup k om := apply_addUpd_lookup nm om hndnm
    cases hnmk : jLookup k nm with
    | none =>
        left
        rw [hnmk] at hAk
        refine ⟨?_, rfl⟩
        rw [hRk]
        cases homk : jLookup k om with
        | none => rw [hAk, homk]
        | some ov =>
            have hds := (@delRec_isSome nm ts k ov).mpr hnmk
            simp [hds]
    | some nv =>
        right
        have hnvmem : nv ∈ new_items := by
          have := mem_buildMap (jLookup_mem hnmk)
          exact this.1
        rw [hnmk] at hAk
        have hdel : ∀ ov, (delRec nm ts (k, ov)).isSome = false := by
          intro ov
          cases hd : (delRec nm ts (k, ov)).isSome
          · rfl
          · exact absurd (delRec_isSome.mp hd) (by simp [hnmk])
        have hRA : jLookup k R =
            jLookup k (applyDiffs om (nm.filterMap (addUpdRec om ts))) := by
          rw [hRk]
          cases homk : jLookup k om with
          | none => rfl
          | some ov => simp [hdel ov]
        by_cases hs : (addUpdRec om ts (k, nv)).isSome
        · refine ⟨nv, nv, ?_, rfl, ?_⟩
          · rw [hRA, hAk]
            simp [hs]
          · exact pyEq_refl (jsonDepth nv) nv (le_refl _) (hwfN nv hnvmem)
        · obtain ⟨ov, hov, hpe⟩ := addUpdRec_none
            (Option.not_isSome_iff_eq_none.mp hs)
          refine ⟨ov, nv, ?_, rfl, hpe⟩
          rw [hRA, hAk]
          simp [hs]
          exact hov
  constructor
  · intro x hx
    obtain ⟨p, hp, hps⟩ := List.mem_map.mp hx
    obtain ⟨k, x'⟩ := p
    simp only at hps
    subst hps
    have hlk : jLookup k R = some x' := jLookup_eq_of_mem_nodup hndR hp
    rcases hkey k with ⟨h1, _⟩ | ⟨x'', nv, hx'', hnv, hpe⟩
    · rw [hlk] at h1; exact absurd h1 (by simp)
    · rw [hlk] at hx''
      injection hx'' with hx''
      subst hx''
      have hnvmem : nv ∈ new_items := (mem_buildMap (jLookup_mem hnv)).1
      exact ⟨nv, hnvmem, hpe⟩
  · intro y hy
    obtain ⟨k, hk⟩ := Option.isSome_iff_exists.mp (hidsN y hy)
    have hpair : (k, y) ∈ nm := by
      rw [hnm, show buildMap new_items = new_items.foldl (fun m item =>
        match extract_id item with
        | some k => dictInsert k item m
        | none => m) [] from rfl]
      rw [buildMap_eq new_items [] hndN (by simp)]
      simp only [List.nil_append]
      exact List.mem_filterMap.mpr ⟨y, hy, by rw [hk]; rfl⟩
    have hnmk : jLookup k nm = some y := jLookup_eq_of_mem_nodup hndnm hpair
    rcases hkey k with ⟨_, h2⟩ | ⟨x, nv, hx, hnv, hpe⟩
    · rw [hnmk] at h2; exact absurd h2 (by simp)
    · rw [hnmk] at hnv
      injection hnv with hnv
      subst hnv
      refine ⟨x, ?_, hpe⟩
      exact List.mem_map.mpr ⟨(k, x), jLookup_mem hx, rfl⟩

/-- C7: diff output shape.  (1) `_compute_diff` emits the add/update
records in `new_map` iteration order followed by the delete records in
`old_map` iteration order; (2) a map's key order is the order in which
keys first appear in the row sequence (`dedupFirst`), so adds/updates are
ordered by first appearance in the new rows and deletes by first
appearance in the parent rows; (3) rows without an `id` are skipped, not
fatal; (4) the update-vs-omit test is Python deep equality, which ignores
map key ordering (a well-formed dict equals any key-permutation of
itself). -/
theorem diff_output_order (old_items new_items : List Json) (ts : Nat) :
    (compute_diff old_items new_items ts =
      (buildMap new_items).filterMap (addUpdRec (buildMap old_items) ts) ++
        (buildMap old_items).filterMap (delRec (buildMap new_items) ts)) ∧
    (∀ items : List Json,
      (buildMap items).map Prod.fst = dedupFirst (items.filterMap extract_id)) ∧
    (∀ (x : Json) (l : List Json), extract_id x = none →
      buildMap (x :: l) = buildMap l) ∧
    (∀ fs gs : List (String × Json), wfJson (.obj fs) = true → fs.Perm gs →
      pyEq (.obj fs) (.obj gs) = true) :=
  ⟨compute_diff_decomp old_items new_items ts,
   fun items => buildMap_keys items,
   fun _ _ hx => buildMap_skip hx _,
   fun _ _ hwf hperm => pyEq_of_perm hwf hperm⟩

theorem diff_output_order_witness :
    (compute_diff [exRow] [exRowAmount1] 5 =
      (buildMap [exRowAmount1]).filterMap (addUpdRec (buildMap [exRow]) 5) ++
        (buildMap [exRow]).filterMap (delRec (buildMap [exRowAmount1]) 5)) ∧
    pyEq (.obj [("a", .num 1), ("b", .num 2)])
      (.obj [("b", .num 2), ("a", .num 1)]) = true :=
  ⟨(diff_output_order [exRow] [exRowAmount1] 5).1,
   (diff_output_order [] [] 0).2.2.2
     [("a", .num 1), ("b", .num 2)] [("b", .num 2), ("a", .num 1)]
     (by decide) (by decide)⟩

theorem delta_replay_witness :
    (∀ x ∈ (applyDiffs (buildMap [exOrder1, exOrder2])
        (compute_diff [exOrder1, exOrder2] [exOrder2, exOrder3] 7)).map Prod.snd,
      ∃ y ∈ [exOrder2, exOrder3], pyEq x y = true) ∧
    (∀ y ∈ [exOrder2, exOrder3],
      ∃ x ∈ (applyDiffs (buildMap [exOrder1, exOrder2])
          (compute_diff [exOrder1, exOrder2] [exOrder2, exOrder3] 7)).map Prod.snd,
        pyEq x y = true) :=
  delta_replay [exOrder1, exOrder2] [exOrder2, exOrder3] 7
    (by decide) (by decide) (by decide) (by decide) (by decide)

end PgSpec
